import Mathlib

/-!
Verification of the slide-puzzle core (src/lib.rs, src/main.rs): the puzzle
state model, the three solvers (BFS, best-first, constrained routing) and the
grid-routing subroutine, shallowly embedded in Lean. Machine integers are
modelled as `Nat`; Rust panics and `assert!` failures are modelled as `none`
of an `Option`-valued result.
-/

namespace SlidePuzzle

/-- Grid coordinate, from `Cell` in lib.rs. `x` is the column, `y` the row. -/
structure Cell where
  x : Nat
  y : Nat
deriving DecidableEq, Repr

/-- Constructor `Cell::new`. -/
def Cell.new (x y : Nat) : Cell := ⟨x, y⟩

/-- Method `Cell::as_index`: flat row-major index `y*cols + x` (`rows` unused). -/
def Cell.as_index (c : Cell) (_rows cols : Nat) : Nat := c.y * cols + c.x

/-- The `cell!(idx, rows, cols)` macro arm from lib.rs: `Cell::new(idx % cols, idx / cols)`. -/
def cellOfIndex (idx _rows cols : Nat) : Cell := Cell.new (idx % cols) (idx / cols)

/-- Modelled from the spec: `Cell::manhattan_distance`, called by
`AStarSolver::heuristic` in main.rs but absent from the sources under src/.
Per the spec glossary it is `|Δx| + |Δy|` between two cells. -/
def Cell.manhattan_distance (a b : Cell) : Nat :=
  ((a.x : Int) - (b.x : Int)).natAbs + ((a.y : Int) - (b.y : Int)).natAbs

/-- Numbered tile, from `Piece` in lib.rs. -/
structure Piece where
  num : Nat
deriving DecidableEq, Repr

/-- Constructor `Piece::new`. -/
def Piece.new (num : Nat) : Piece := ⟨num⟩

/-- Puzzle state, from `State` in main.rs: row-major tile arrangement
(`none` is the blank), fixed dimensions, and the blank's cell. -/
structure State where
  pieces : List (Option Piece)
  rows : Nat
  cols : Nat
  blank_cell : Cell
deriving DecidableEq, Repr

/-- Constructor `State::new`. `rows * cols - 1` underflows (a Rust panic) when
the product is zero, modelled as `none`; otherwise the solved arrangement. -/
def State.new (rows cols : Nat) : Option State :=
  if rows * cols = 0 then none
  else
    let blank_index := rows * cols - 1
    let pieces := ((List.range (blank_index + 1)).map
      (fun n => some (Piece.new (n + 1)))).set blank_index none
    some { rows := rows, cols := cols, pieces := pieces,
           blank_cell := cellOfIndex blank_index rows cols }

/-- Method `State::neighbors_at`: the up-to-4 in-bounds grid neighbours of
`(x, y)`, in the source's order `(dx, dy) ∈ [(0,-1), (-1,0), (1,0), (0,1)]`. -/
def State.neighbors_at (s : State) (x y : Nat) : List Cell :=
  let dx : List Int := [0, -1, 1, 0]
  let dy : List Int := [-1, 0, 0, 1]
  (List.range 4).filterMap fun k =>
    let nx : Int := (x : Int) + dx.getD k 0
    let ny : Int := (y : Int) + dy.getD k 0
    if nx < 0 || ny < 0 || nx ≥ (s.cols : Int) || ny ≥ (s.rows : Int) then none
    else some (Cell.new nx.toNat ny.toNat)

/-- Method `State::neighbors`. -/
def State.neighbors (s : State) (c : Cell) : List Cell :=
  s.neighbors_at c.x c.y

/-- Method `State::get_index`. -/
def State.get_index (s : State) (c : Cell) : Nat :=
  c.as_index s.rows s.cols

/-- Method `State::get_piece`; `self.pieces[idx]` with the in-bounds defaults
used throughout (all call sites index in bounds). -/
def State.get_piece (s : State) (c : Cell) : Option Piece :=
  s.pieces.getD (s.get_index c) none

/-- Exchange the entries of `l` at positions `i` and `j` (Rust `Vec::swap`);
`none` models the out-of-bounds panic. -/
def listSwap {α : Type} (l : List α) (i j : Nat) : Option (List α) :=
  match l.get? i, l.get? j with
  | some a, some b => some ((l.set i b).set j a)
  | _, _ => none

/-- Method `State::swap`: `none` models the `assert!` failure when neither
argument is the blank (and the out-of-bounds indexing panic); otherwise the
two entries are exchanged and `blank_cell` moves to the other argument. -/
def State.swap (s : State) (cell1 cell2 : Cell) : Option State :=
  if s.blank_cell = cell1 ∨ s.blank_cell = cell2 then
    match listSwap s.pieces (s.get_index cell1) (s.get_index cell2) with
    | some l => some
        { s with
          pieces := l,
          blank_cell := if s.blank_cell = cell1 then cell2 else cell1 }
    | none => none
  else none

/-- Method `State::is_finished`: the blank sits on the last cell and the
enumerate-and-check of every entry succeeds. -/
def State.is_finished (s : State) : Bool :=
  (s.blank_cell = Cell.new (s.cols - 1) (s.rows - 1)) &&
    s.pieces.enum.all fun ip =>
      match ip.2 with
      | some piece => ip.1 == piece.num - 1
      | none => ip.1 == s.rows * s.cols - 1

/-- Method `State::movable_position`: the blank if adjacent to `cell`. -/
def State.movable_position (s : State) (c : Cell) : Option Cell :=
  (s.neighbors c).find? fun n => n = s.blank_cell

/-- Method `State::find_piece`: first cell whose entry equals `needle`;
`none` models the `unreachable!` panic when absent. -/
def State.find_piece (s : State) (needle : Option Piece) : Option Cell :=
  (s.pieces.findIdx? fun p => p = needle).map fun i => cellOfIndex i s.rows s.cols

/-- The consumer loop of `play_with_ai`: apply an emitted move sequence in
order via `state.swap(state.blank_cell, mv)`. -/
def replaySwaps (s : State) (ms : List Cell) : Option State :=
  ms.foldlM (fun st m => st.swap st.blank_cell m) s

/-- Application of a move sequence as legal slides: each target must be a
4-neighbour of the blank at the moment it is applied (the adjacency contract
of the spec, and the only mutation `shuffle` and manual play ever perform). -/
def replaySlides (s : State) (ms : List Cell) : Option State :=
  ms.foldlM
    (fun st m =>
      if m ∈ st.neighbors st.blank_cell then st.swap st.blank_cell m else none) s

/-! ### Visited-state memoisation shared by the BFS and best-first solvers

The Rust code keys a `HashMap` by `state_string()`, an injective rendering of
the `pieces` sequence; the map is only read through `get` and written through
`insert`, so it is modelled as an association list keyed by the `pieces`
sequence itself, where an insert shadows earlier bindings. -/

abbrev Memo := List (List (Option Piece) × Nat)

/-- Lookup of `memo.get(&s)`. -/
def memoLookup (memo : Memo) (key : List (Option Piece)) : Option Nat :=
  (memo.find? fun e => e.1 = key).map fun e => e.2

/-- Write of `memo.insert(s, routes.len())`. -/
def memoInsert (memo : Memo) (key : List (Option Piece)) (len : Nat) : Memo :=
  (key, len) :: memo

/-- The dequeue guard shared verbatim by `BFSSolver::solve_with_expected` and
`AStarSolver::solve_with_expected`: the dequeued entry is skipped exactly when
its key was already visited and the recorded length is strictly smaller than
the entry's path length. -/
def visitedSkip (memo : Memo) (key : List (Option Piece)) (len : Nat) : Bool :=
  match memoLookup memo key with
  | some count => count < len
  | none => false

/-! ### BFSSolver -/

/-- Solver struct `BFSSolver`. -/
structure BFSSolver where
  states : State

/-- One expansion of a dequeued state: for each neighbour of the blank, in
source order, clone, swap, extend the path, and emit the new queue entry.
`none` models a panic inside `swap` (impossible for in-bounds states). -/
def expandState (state : State) (routes : List Cell) :
    Option (List (State × List Cell)) :=
  (state.neighbors state.blank_cell).mapM fun next =>
    (state.swap state.blank_cell next).map fun ns => (ns, routes ++ [next])

/-- The `while let Some(...) = q.pop_front()` loop of
`BFSSolver::solve_with_expected`, with explicit fuel; `none` means the fuel
ran out (or a panic), `some r` is a genuine return of the Rust function. -/
def bfsLoop (expected : State) : Nat → List (State × List Cell) → Memo →
    Option (List Cell)
  | 0, _, _ => none
  | _ + 1, [], _ => some []
  | fuel + 1, (state, routes) :: rest, memo =>
    if state.pieces = expected.pieces then some routes
    else if visitedSkip memo state.pieces routes.length then
      bfsLoop expected fuel rest memo
    else
      match expandState state routes with
      | some newEntries =>
        bfsLoop expected fuel (rest ++ newEntries)
          (memoInsert memo state.pieces routes.length)
      | none => none

/-- Method `BFSSolver::solve_with_expected`. -/
def BFSSolver.solve_with_expected (self : BFSSolver) (expected : State)
    (fuel : Nat) : Option (List Cell) :=
  bfsLoop expected fuel [(self.states, [])] []

/-- Method `<BFSSolver as Solver>::solve`. -/
def BFSSolver.solve (self : BFSSolver) (fuel : Nat) : Option (List Cell) :=
  (State.new self.states.rows self.states.cols).bind fun expected =>
    self.solve_with_expected expected fuel

/-! ### AStarSolver

The priority queue is `BinaryHeap<(usize, State, Vec<Cell>)>`. The tuple's
lexicographic `Ord` compares the `usize` costs first and, on a tie, falls into
`State`'s degenerate `Ord` which returns `Greater` unconditionally; so for any
two entries `a, b` the comparison `a <= b` used inside the heap's sift
routines holds exactly when `a`'s cost is strictly below `b`'s. The heap is
modelled as the backing vector (a list) together with Rust's exact `sift_up` /
`sift_down_to_bottom` hole algorithms. -/

abbrev HeapEntry := Nat × State × List Cell

/-- The `<=` of the tuple `Ord` as used by the heap (see above): strict
comparison of the cost components. -/
def entryLE (a b : HeapEntry) : Bool := a.1 < b.1

/-- The loop of Rust `BinaryHeap::sift_up`: a hole at `pos` carrying `elt`
moves up while the element compares above its parent; the element is written
at the final hole position. The fuel argument only bounds the recursion (the
hole index strictly decreases, so `pos + 1` units never run out) and the
out-of-fuel action coincides with the loop-exit action. Out-of-bounds parent
reads (impossible in well-formed calls) stop the loop. -/
def siftUpGo (elt : HeapEntry) (start : Nat) :
    Nat → List HeapEntry → Nat → List HeapEntry × Nat
  | 0, data, pos => (data.set pos elt, pos)
  | fuel + 1, data, pos =>
    if start < pos then
      let parent := (pos - 1) / 2
      match data.get? parent with
      | some pe =>
        if entryLE elt pe then (data.set pos elt, pos)
        else siftUpGo elt start fuel (data.set pos pe) parent
      | none => (data.set pos elt, pos)
    else (data.set pos elt, pos)

/-- Rust `BinaryHeap::sift_up`. -/
def siftUpAux (data : List HeapEntry) (elt : HeapEntry) (start pos : Nat) :
    List HeapEntry × Nat :=
  siftUpGo elt start (pos + 1) data pos

/-- Rust `BinaryHeap::push`: append, then sift the new element up from the
old length. -/
def heapPush (data : List HeapEntry) (item : HeapEntry) : List HeapEntry :=
  (siftUpAux (data ++ [item]) item 0 data.length).1

/-- The descent loop of Rust `BinaryHeap::sift_down_to_bottom`: the hole at
`pos` walks to the bottom of the heap of size `end_`, always moving to the
child that compares higher; returns the data and the final hole position.
The fuel only bounds the recursion (the hole index strictly increases towards
`end_`, so `end_ + 1` units never run out). -/
def siftDownDescend (end_ : Nat) :
    Nat → List HeapEntry → Nat → List HeapEntry × Nat
  | 0, data, pos => (data, pos)
  | fuel + 1, data, pos =>
    let child := 2 * pos + 1
    if child ≤ end_ - 2 then
      match data.get? child, data.get? (child + 1) with
      | some cl, some cr =>
        let c2 := if entryLE cl cr then child + 1 else child
        let ce := if entryLE cl cr then cr else cl
        siftDownDescend end_ fuel (data.set pos ce) c2
      | _, _ => (data, pos)
    else if child = end_ - 1 then
      match data.get? child with
      | some ce => (data.set pos ce, child)
      | none => (data, pos)
    else (data, pos)

/-- The descent phase of `sift_down_to_bottom` with its sufficient fuel. -/
def siftDownGo (data : List HeapEntry) (end_ pos : Nat) : List HeapEntry × Nat :=
  siftDownDescend end_ (end_ + 1) data pos

/-- Rust `BinaryHeap::pop`: remove the last element; if the heap is still
non-empty it replaces the root (which is returned), and the hole at the root
is sifted down to the bottom and then up. -/
def heapPop (data : List HeapEntry) : Option (HeapEntry × List HeapEntry) :=
  match data with
  | [] => none
  | d :: ds =>
    let item := (d :: ds).getLast (List.cons_ne_nil d ds)
    match (d :: ds).dropLast with
    | [] => some (item, [])
    | root :: _ =>
      let sdown := siftDownGo (d :: ds).dropLast (d :: ds).dropLast.length 0
      some (root, (siftUpAux sdown.1 item 0 sdown.2).1)

/-- Solver struct `AStarSolver`. -/
structure AStarSolver where
  states : State

/-- The constant `max_cost` of `AStarSolver::solve_with_expected`. -/
def MAX_COST : Nat := 10000000

/-- Method `AStarSolver::heuristic`: for every flat index of the board (the
dimensions are the solver's), take the goal's occupant of that cell, locate it
in `current`, and sum the Manhattan distances. `none` models the
`unreachable!` panic inside `find_piece` when an occupant is absent. -/
def AStarSolver.heuristic (self : AStarSolver) (expected current : State) :
    Option Nat :=
  (((List.range (self.states.rows * self.states.cols)).mapM fun i =>
    let c := cellOfIndex i self.states.rows self.states.cols
    (current.find_piece (expected.get_piece c)).map fun pos =>
      c.manhattan_distance pos)).map List.sum

/-- One frontier expansion of `AStarSolver::solve_with_expected`: push, for
each neighbour of the blank in source order, the swapped clone with its
extended path, at priority `max_cost - heuristic`. -/
def astarExpand (self : AStarSolver) (expected state : State)
    (routes : List Cell) (heap : List HeapEntry) : Option (List HeapEntry) :=
  (state.neighbors state.blank_cell).foldlM
    (fun h next =>
      (state.swap state.blank_cell next).bind fun next_state =>
        (self.heuristic expected next_state).map fun next_cost =>
          heapPush h (MAX_COST - next_cost, next_state, routes ++ [next]))
    heap

/-- The `while let Some(...) = pq.pop()` loop of
`AStarSolver::solve_with_expected`, with explicit fuel; `none` means the fuel
ran out or a panic, `some r` a genuine return. -/
def astarLoop (self : AStarSolver) (expected : State) :
    Nat → List HeapEntry → Memo → Option (List Cell)
  | 0, _, _ => none
  | fuel + 1, heap, memo =>
    match heapPop heap with
    | none => some []
    | some ((cost, state, routes), rest) =>
      if cost = MAX_COST then some routes
      else if visitedSkip memo state.pieces routes.length then
        astarLoop self expected fuel rest memo
      else
        match astarExpand self expected state routes rest with
        | some heap2 =>
          astarLoop self expected fuel heap2
            (memoInsert memo state.pieces routes.length)
        | none => none

/-- Method `AStarSolver::solve_with_expected`. -/
def AStarSolver.solve_with_expected (self : AStarSolver) (expected : State)
    (fuel : Nat) : Option (List Cell) :=
  (self.heuristic expected self.states).bind fun cost =>
    astarLoop self expected fuel
      (heapPush [] (MAX_COST - cost, self.states, [])) []

/-- Method `<AStarSolver as Solver>::solve`. -/
def AStarSolver.solve (self : AStarSolver) (fuel : Nat) : Option (List Cell) :=
  (State.new self.states.rows self.states.cols).bind fun expected =>
    self.solve_with_expected expected fuel

/-! ### MySolver (constrained routing) -/

/-- Solver struct `MySolver`. -/
structure MySolver where
  states : State

/-- The in-bounds neighbour candidate examined at loop index `k` of the
`for k in 0..4` expansion inside `MySolver::find_routes`, with the source's
offset order `(dx, dy) ∈ [(1,0), (0,1), (-1,0), (0,-1)]`. -/
def findRoutesCand (rows cols : Nat) (current : Cell) (k : Nat) : Option Cell :=
  let dx : List Int := [1, 0, -1, 0]
  let dy : List Int := [0, 1, 0, -1]
  let nx : Int := dx.getD k 0 + (current.x : Int)
  let ny : Int := dy.getD k 0 + (current.y : Int)
  if nx < 0 || ny < 0 || nx ≥ (cols : Int) || ny ≥ (rows : Int) then none
  else some (Cell.new nx.toNat ny.toNat)

/-- The body of the `for k in 0..4` loop of `MySolver::find_routes`: skip
out-of-bounds candidates, skip already-visited ones, mark the rest visited,
and enqueue them unless frozen. -/
def findRoutesStep (rows cols : Nat) (constraints : List Bool) (current : Cell)
    (routes : List Cell) (acc : List Bool × List (Cell × List Cell)) (k : Nat) :
    List Bool × List (Cell × List Cell) :=
  match findRoutesCand rows cols current k with
  | none => acc
  | some next =>
    let next_idx := next.as_index rows cols
    if acc.1.getD next_idx false then acc
    else
      let m2 := acc.1.set next_idx true
      if constraints.getD next_idx false then (m2, acc.2)
      else (m2, acc.2 ++ [(next, routes ++ [next])])

/-- One queue step of `MySolver::find_routes`: expand the dequeued cell's four
neighbours in source order, marking each in-bounds neighbour visited and
enqueueing it unless frozen. Returns the updated visited mask and the entries
pushed, in push order. -/
def findRoutesExpand (rows cols : Nat) (constraints : List Bool)
    (current : Cell) (routes : List Cell) (memo : List Bool) :
    List Bool × List (Cell × List Cell) :=
  (List.range 4).foldl (findRoutesStep rows cols constraints current routes)
    (memo, [])

/-- The `while !queues.is_empty()` loop of `MySolver::find_routes`, with
explicit fuel (`none` = fuel ran out; `some r` a genuine return). -/
def findRoutesLoop (rows cols : Nat) (endCell : Cell) (constraints : List Bool) :
    Nat → List (Cell × List Cell) → List Bool → Option (List Cell)
  | 0, _, _ => none
  | _ + 1, [], _ => some []
  | fuel + 1, (current, routes) :: rest, memo =>
    if current = endCell then some routes
    else
      let e := findRoutesExpand rows cols constraints current routes memo
      findRoutesLoop rows cols endCell constraints fuel (rest ++ e.2) e.1

/-- Fuel that always suffices for `findRoutesLoop` (established by
`findRoutesLoop_total`): one unit per queue entry plus two per cell. -/
def findRoutesFuel (constraints : List Bool) : Nat :=
  2 * constraints.length + 2

/-- Method `MySolver::find_routes`: BFS from `start` towards `end` over the
4-connected grid, with `constraints` as the frozen mask and a fresh visited
mask of the same length. -/
def MySolver.find_routes (self : MySolver) (start endCell : Cell)
    (constraints : List Bool) : Option (List Cell) :=
  findRoutesLoop self.states.rows self.states.cols endCell constraints
    (findRoutesFuel constraints) [(start, [])]
    (List.replicate constraints.length false)

/-- One iteration of the `for &next in routes.iter()` loop of
`MySolver::move_to`, threading the mutated puzzle state, the constraint mask,
the emitted moves, and the tile's current cell. -/
def moveToStep (self : MySolver) (acc : State × List Bool × List Cell × Cell)
    (next : Cell) : Option (State × List Bool × List Cell × Cell) :=
  let st := acc.1
  let cons := acc.2.1
  let ans := acc.2.2.1
  let current := acc.2.2.2
  let cons1 := cons.set (st.get_index current) true
  ((MySolver.mk st).find_routes st.blank_cell next cons1).bind fun blank_routes =>
    (blank_routes.foldlM
      (fun (p : State × List Cell) b =>
        (p.1.swap p.1.blank_cell b).map fun s2 => (s2, p.2 ++ [b]))
      (st, ans)).bind fun sa =>
      let cons2 := cons1.set (sa.1.get_index current) false
      (sa.1.swap sa.1.blank_cell current).map fun st3 =>
        (st3, cons2, sa.2 ++ [current], next)

/-- Method `MySolver::move_to`: route the tile at `start` to `end` one grid
step at a time, per the source. Returns the final state, constraint mask and
the emitted moves. -/
def MySolver.move_to (self : MySolver) (start endCell : Cell)
    (constraints : List Bool) : Option (State × List Bool × List Cell) :=
  ((MySolver.mk self.states).find_routes start endCell constraints).bind
    fun routes =>
      (routes.foldlM (moveToStep self) (self.states, constraints, [], start)).map
        fun r => (r.1, r.2.1, r.2.2.1)

/-- The target-cell visitation order built at the top of `MySolver::solve`:
for each layer `i < min(rows, cols) - 1`, the cells `(x, i)` for `x ∈ i..cols`
then `(i, y)` for `y ∈ i+1..rows`. -/
def buildTargets (rows cols : Nat) : List Cell :=
  (List.range (min rows cols - 1)).bind fun i =>
    ((List.range' i (cols - i)).map fun x => Cell.new x i) ++
      ((List.range' (i + 1) (rows - (i + 1))).map fun y => Cell.new i y)

/-- Method `MySolver::is_correct_place`. -/
def isCorrectPlace (st : State) (c : Cell) : Bool :=
  match st.get_piece c with
  | some piece => piece.num - 1 = c.as_index st.rows st.cols
  | none => c = Cell.new (st.cols - 1) (st.rows - 1)

/-- Method `MySolver::find_target_num`: `none` models the failed `assert!` on
the tile number and the `unreachable!` when the tile is absent. -/
def findTargetNum (st : State) (num : Nat) : Option Cell :=
  if 1 ≤ num ∧ num < st.rows * st.cols then
    (st.pieces.findIdx? fun p =>
      match p with
      | some piece => piece.num = num
      | none => false).map fun i => cellOfIndex i st.rows st.cols
  else none

/-- One iteration of the `for target in targets.into_iter().take(4)` loop of
`MySolver::solve`, threading the state, the `moved` mask, and the answer. -/
def mySolveStep (acc : State × List Bool × List Cell) (target : Cell) :
    Option (State × List Bool × List Cell) :=
  let st := acc.1
  let moved := acc.2.1
  let ans := acc.2.2
  if isCorrectPlace st target then
    some (st, moved.set (st.get_index target) true, ans)
  else
    let target_num := st.get_index target + 1
    (findTargetNum st target_num).bind fun current =>
      ((MySolver.mk st).move_to current target moved).map fun r =>
        (r.1, r.2.1.set (r.1.get_index target) true, ans ++ r.2.2)

/-- Method `MySolver::solve`: place the first four targets of the frame
visitation order (the source's `take(4)` truncation), accumulating every
emitted slide. -/
def MySolver.solve (self : MySolver) : Option (List Cell) :=
  let st := self.states
  let moved := List.replicate (st.cols * st.rows) false
  (((buildTargets st.rows st.cols).take 4).foldlM mySolveStep
    (st, moved, [])).map fun r => r.2.2

/-- Specification-side path validity for the routing grid: `p` is a path of
intermediate cells from `c` to `e` when consecutive cells are 4-adjacent
(Manhattan distance 1), every cell of `p` is in bounds and not frozen, and
the last cell is `e` (an empty path requires `c = e`). The cells of `p`
exclude `c` itself, matching what `find_routes` returns. -/
def validFromB (rows cols : Nat) (constraints : List Bool) :
    Cell → List Cell → Cell → Bool
  | c, [], e => c = e
  | c, d :: p, e =>
    (Cell.manhattan_distance c d == 1) && (d.x < cols) && (d.y < rows) &&
      (!constraints.getD (d.as_index rows cols) false) &&
      validFromB rows cols constraints d p e

/-- A staircase path between two cells: first walk the x coordinate toward
the target, then the y coordinate; used to witness that an open grid has a
path of length exactly the Manhattan distance. -/
def stairPath : Nat → Cell → Cell → List Cell
  | 0, _, _ => []
  | fuel + 1, c, e =>
    if c.x < e.x then
      Cell.new (c.x + 1) c.y :: stairPath fuel (Cell.new (c.x + 1) c.y) e
    else if e.x < c.x then
      Cell.new (c.x - 1) c.y :: stairPath fuel (Cell.new (c.x - 1) c.y) e
    else if c.y < e.y then
      Cell.new c.x (c.y + 1) :: stairPath fuel (Cell.new c.x (c.y + 1)) e
    else if e.y < c.y then
      Cell.new c.x (c.y - 1) :: stairPath fuel (Cell.new c.x (c.y - 1)) e
    else []

/-- Queue-shape invariant of the routing BFS: along the FIFO queue the route
lengths are nondecreasing and any two differ by at most one. -/
def frQShape (q : List (Cell × List Cell)) : Prop :=
  q.Pairwise (fun a b => a.2.length ≤ b.2.length ∧ b.2.length ≤ a.2.length + 1)

/-- Cut invariant of the routing BFS, for one valid path `p` from `start`:
some position `j` along `p` is still queued with a route of length at most
`j`, and every strictly later cell of `p` is still unvisited. -/
def frCut (rows cols : Nat) (start : Cell) (q : List (Cell × List Cell))
    (memo : List Bool) (p : List Cell) : Prop :=
  ∃ j, j ≤ p.length ∧ ∃ r, ((start :: p).getD j start, r) ∈ q ∧ r.length ≤ j ∧
    ∀ i, j < i → i ≤ p.length →
      memo.getD (((start :: p).getD i start).as_index rows cols) false = false

/-- Full loop invariant of `MySolver::find_routes`: the visited mask has one
entry per cell, every queued route is a valid path from `start` to its cell,
the queue is level-shaped, and every valid path to `endCell` has a cut. -/
def frInv (rows cols : Nat) (constraints : List Bool) (start endCell : Cell)
    (q : List (Cell × List Cell)) (memo : List Bool) : Prop :=
  memo.length = rows * cols ∧
  (∀ e ∈ q, validFromB rows cols constraints start e.2 e.1 = true) ∧
  frQShape q ∧
  ∀ p, validFromB rows cols constraints start p endCell = true →
    frCut rows cols start q memo p

/-! ### Concrete fixtures (used by witnesses and counterexamples) -/

/-- Build a pieces row from tile numbers, `0` marking the blank. -/
def pieceList (ns : List Nat) : List (Option Piece) :=
  ns.map fun n => if n = 0 then none else some (Piece.new n)

/-- The solved 2×2 state (the payload of `State.new 2 2`). -/
def solved22 : State := ⟨pieceList [1, 2, 3, 0], 2, 2, Cell.new 1 1⟩

/-- The solved 3×3 state (the payload of `State.new 3 3`). -/
def solved33 : State := ⟨pieceList [1, 2, 3, 4, 5, 6, 7, 8, 0], 3, 3, Cell.new 2 2⟩

/-- The 2×2 state one legal slide away from solved: `[1, 2, blank, 3]`. -/
def oneAway22 : State := ⟨pieceList [1, 2, 0, 3], 2, 2, Cell.new 0 1⟩

/-- The 3×3 scramble `[2, 4, 3, 1, blank, 5, 7, 8, 6]`, reachable from solved
in 6 slides. -/
def scramble33 : State := ⟨pieceList [2, 4, 3, 1, 0, 5, 7, 8, 6], 3, 3, Cell.new 1 1⟩

/-- The 2×3 scramble `[1, 2, 4, blank, 5, 3]`, reachable from solved in 10
slides. -/
def scramble23 : State := ⟨pieceList [1, 2, 4, 0, 5, 3], 2, 3, Cell.new 0 1⟩

/-- The solved 2×3 state (the payload of `State.new 2 3`). -/
def solved23 : State := ⟨pieceList [1, 2, 3, 4, 5, 0], 2, 3, Cell.new 2 1⟩

/-- A 6-slide legal scramble sequence from the solved 3×3 state to
`scramble33`. -/
def c1ScramblePath : List Cell :=
  [Cell.new 2 1, Cell.new 1 1, Cell.new 0 1, Cell.new 0 0, Cell.new 1 0,
   Cell.new 1 1]

/-- The sequence `BFSSolver::solve` emits on `scramble33`. -/
def c1BfsMoves : List Cell :=
  [Cell.new 1 0, Cell.new 0 0, Cell.new 0 1, Cell.new 1 1, Cell.new 2 1,
   Cell.new 2 2]

/-- The sequence `AStarSolver::solve` emits on `scramble33`. -/
def c1AstarMoves : List Cell :=
  [Cell.new 2 1, Cell.new 2 2, Cell.new 1 2, Cell.new 1 1, Cell.new 1 0,
   Cell.new 0 0, Cell.new 0 1, Cell.new 1 1, Cell.new 1 2, Cell.new 2 2]

/-- A 10-slide legal scramble sequence from the solved 2×3 state to
`scramble23`. -/
def c5ScramblePath : List Cell :=
  [Cell.new 1 1, Cell.new 0 1, Cell.new 0 0, Cell.new 1 0, Cell.new 1 1,
   Cell.new 2 1, Cell.new 2 0, Cell.new 1 0, Cell.new 0 0, Cell.new 0 1]

/-- The sequence `MySolver::solve` emits on `scramble23`. -/
def c5Moves : List Cell :=
  [Cell.new 2 1, Cell.new 2 0, Cell.new 2 1, Cell.new 1 1]

/-- Well-formedness facts about a state that the search loops preserve: the
arrangement has exactly `rows*cols` entries and the blank's cell is in
bounds. Scrambles obtained from `State::new` plus legal slides satisfy it. -/
def StateWF (st : State) : Prop :=
  st.pieces.length = st.rows * st.cols ∧
  st.blank_cell.x < st.cols ∧ st.blank_cell.y < st.rows

/-! ### Properties of `listSwap` (Rust `Vec::swap`) -/

theorem listSwap_eq_some {α : Type} (l : List α) (i j : Nat)
    (hi : i < l.length) (hj : j < l.length) :
    ∃ l', listSwap l i j = some l' ∧ l'.length = l.length ∧
      l'[j]? = l[i]? ∧ l'[i]? = l[j]? ∧
      (∀ k, k ≠ i → k ≠ j → l'[k]? = l[k]?) := by
  refine ⟨(l.set i (l.get ⟨j, hj⟩)).set j (l.get ⟨i, hi⟩), ?_, ?_, ?_, ?_, ?_⟩
  · simp [listSwap, List.get?_eq_getElem?, List.getElem?_eq_getElem hi,
      List.getElem?_eq_getElem hj, List.get_eq_getElem]
  · simp
  · rw [List.getElem?_set_eq (by simpa using hj)]
    simp [List.get_eq_getElem, List.getElem?_eq_getElem hi]
  · rcases eq_or_ne i j with rfl | hne
    · rw [List.getElem?_set_eq (by simpa using hj)]
      simp [List.get_eq_getElem, List.getElem?_eq_getElem hi]
    · rw [List.getElem?_set_ne (fun h => hne h.symm),
        List.getElem?_set_eq (by simpa using hi)]
      simp [List.get_eq_getElem, List.getElem?_eq_getElem hj]
  · intro k hki hkj
    rw [List.getElem?_set_ne (fun h => hkj h.symm),
      List.getElem?_set_ne (fun h => hki h.symm)]

theorem listSwap_isSome {α : Type} (l : List α) (i j : Nat)
    (hi : i < l.length) (hj : j < l.length) : (listSwap l i j).isSome = true := by
  obtain ⟨l', hl', -⟩ := listSwap_eq_some l i j hi hj
  simp [hl']

theorem listSwap_isSome_bounds {α : Type} (l : List α) (i j : Nat) (l' : List α)
    (h : listSwap l i j = some l') : i < l.length ∧ j < l.length := by
  unfold listSwap at h
  rcases hgi : l.get? i with _ | a
  · rw [hgi] at h
    exact absurd h (by rcases l.get? j with _ | b <;> simp)
  rcases hgj : l.get? j with _ | b
  · rw [hgi, hgj] at h
    exact absurd h (by simp)
  constructor
  · rw [List.get?_eq_getElem?] at hgi
    by_contra hc
    rw [List.getElem?_eq_none (by omega)] at hgi
    exact absurd hgi (by simp)
  · rw [List.get?_eq_getElem?] at hgj
    by_contra hc
    rw [List.getElem?_eq_none (by omega)] at hgj
    exact absurd hgj (by simp)

theorem listSwap_count {α : Type} [DecidableEq α] (l l' : List α) (i j : Nat)
    (h : listSwap l i j = some l') (x : α) : l'.count x = l.count x := by
  unfold listSwap at h
  rcases hgi : l.get? i with _ | a
  · rw [hgi] at h
    exact absurd h (by rcases l.get? j with _ | b <;> simp)
  rcases hgj : l.get? j with _ | b
  · rw [hgi, hgj] at h
    exact absurd h (by simp)
  rw [hgi, hgj] at h
  obtain rfl : (l.set i b).set j a = l' := by simpa using h
  rw [List.get?_eq_getElem?] at hgi hgj
  have hi : i < l.length := by
    by_contra hc
    rw [List.getElem?_eq_none (by omega)] at hgi; exact absurd hgi (by simp)
  have hj : j < l.length := by
    by_contra hc
    rw [List.getElem?_eq_none (by omega)] at hgj; exact absurd hgj (by simp)
  have ha : l[i] = a := by
    have := List.getElem?_eq_getElem hi; rw [hgi] at this; exact (Option.some_inj.mp this).symm
  have hb : l[j] = b := by
    have := List.getElem?_eq_getElem hj; rw [hgj] at this; exact (Option.some_inj.mp this).symm
  have hcx : (if a = x then 1 else 0) ≤ l.count x := by
    split_ifs with hax
    · exact List.one_le_count_iff.mpr ((ha ▸ hax : l[i] = x) ▸ l.getElem_mem hi)
    · exact Nat.zero_le _
  rcases eq_or_ne i j with rfl | hne
  · obtain rfl : a = b := by rw [← ha, ← hb]
    have hi2 : i < (l.set i a).length := by simp [hi]
    have e1 := List.count_set a x (l.set i a) i hi2
    have e3 : (l.set i a)[i] = a := List.getElem_set_eq hi2
    have e2 := List.count_set a x l i hi
    rw [e3] at e1
    rw [ha] at e2
    rw [e2] at e1
    rw [e1]
    simp only [beq_iff_eq] at *
    split_ifs at hcx ⊢ <;> omega
  · have hj2 : j < (l.set i b).length := by simp [hj]
    have e1 := List.count_set a x (l.set i b) j hj2
    have e3 : (l.set i b)[j] = l[j] := List.getElem_set_ne hne hj2
    have e2 := List.count_set b x l i hi
    rw [e3, hb] at e1
    rw [ha] at e2
    rw [e2] at e1
    rw [e1]
    simp only [beq_iff_eq] at *
    split_ifs at hcx ⊢ <;> omega

theorem count_instance_irrel {α : Type} [DecidableEq α] [inst : BEq α]
    [LawfulBEq α] (l : List α) (x : α) :
    @List.count α inst x l = @List.count α instBEqOfDecidableEq x l := by
  rw [@List.count_eq_countP, @List.count_eq_countP]
  apply List.countP_congr
  intro a _
  simp [beq_iff_eq]

/-! ### Behaviour of `State::swap` -/

theorem swap_none_of_not_blank (s : State) (a b : Cell)
    (h1 : s.blank_cell ≠ a) (h2 : s.blank_cell ≠ b) : s.swap a b = none := by
  unfold State.swap
  rw [if_neg]
  rintro (h | h) <;> [exact h1 h; exact h2 h]

theorem swap_eq_some (s : State) (a b : Cell)
    (hor : s.blank_cell = a ∨ s.blank_cell = b)
    (ha : s.get_index a < s.pieces.length) (hb : s.get_index b < s.pieces.length) :
    ∃ l', listSwap s.pieces (s.get_index a) (s.get_index b) = some l' ∧
      s.swap a b = some
        { s with
          pieces := l',
          blank_cell := if s.blank_cell = a then b else a } := by
  obtain ⟨l', hl', -⟩ := listSwap_eq_some s.pieces (s.get_index a) (s.get_index b) ha hb
  exact ⟨l', hl', by unfold State.swap; rw [if_pos hor, hl']⟩

/-- C6: `swap(a, b)` aborts whenever neither `a` nor `b` is the current blank
cell; when one of them is the blank (and the two indices are in bounds, since
out-of-bounds indexing is itself a panic), it exchanges the two cells'
contents and moves `blank_cell` to whichever of `a`, `b` was not previously
blank. -/
theorem claim_C6 (s : State) (a b : Cell) :
    (s.blank_cell ≠ a ∧ s.blank_cell ≠ b → s.swap a b = none) ∧
    ((s.blank_cell = a ∨ s.blank_cell = b) →
      s.get_index a < s.pieces.length → s.get_index b < s.pieces.length →
      ∃ s', s.swap a b = some s' ∧
        s'.pieces[s.get_index a]? = s.pieces[s.get_index b]? ∧
        s'.pieces[s.get_index b]? = s.pieces[s.get_index a]? ∧
        (s.blank_cell = a → s'.blank_cell = b) ∧
        (s.blank_cell = b → s.blank_cell ≠ a → s'.blank_cell = a)) := by
  constructor
  · exact fun h => swap_none_of_not_blank s a b h.1 h.2
  · intro hor ha hb
    obtain ⟨l', hl', hswap⟩ := swap_eq_some s a b hor ha hb
    obtain ⟨l'', hl'', hlen, hja, hji, -⟩ :=
      listSwap_eq_some s.pieces (s.get_index a) (s.get_index b) ha hb
    rw [hl'] at hl''
    obtain rfl : l' = l'' := by simpa using hl''
    refine ⟨_, hswap, hji, hja, fun h => by simp [h], fun h h' => by simp [h, h']⟩

/-- C6 witness: on the solved 2×2 board, a swap naming two non-blank cells
aborts, and the accepted swap of the blank `(1,1)` with `(0,1)` exchanges the
two entries and moves the blank to `(0,1)`. -/
theorem claim_C6_witness :
    solved22.swap (Cell.new 0 0) (Cell.new 1 0) = none ∧
    (∃ s', solved22.swap (Cell.new 1 1) (Cell.new 0 1) = some s' ∧
      s'.pieces[solved22.get_index (Cell.new 1 1)]? =
        solved22.pieces[solved22.get_index (Cell.new 0 1)]? ∧
      s'.pieces[solved22.get_index (Cell.new 0 1)]? =
        solved22.pieces[solved22.get_index (Cell.new 1 1)]? ∧
      (solved22.blank_cell = Cell.new 1 1 → s'.blank_cell = Cell.new 0 1) ∧
      (solved22.blank_cell = Cell.new 0 1 → solved22.blank_cell ≠ Cell.new 1 1 →
        s'.blank_cell = Cell.new 1 1)) :=
  ⟨(claim_C6 solved22 (Cell.new 0 0) (Cell.new 1 0)).1 ⟨by decide, by decide⟩,
   (claim_C6 solved22 (Cell.new 1 1) (Cell.new 0 1)).2 (Or.inl (by decide))
     (by decide) (by decide)⟩

/-- C7 counterexample: on the solved 3×3 board the call
`swap(blank_cell, (0,0))` is accepted and mutates the state, although `(0,0)`
is not a 4-neighbour of the blank `(2,2)` — `swap` never checks adjacency. -/
theorem claim_C7_counterexample :
    (solved33.swap solved33.blank_cell (Cell.new 0 0)).isSome = true ∧
    ¬ Cell.new 0 0 ∈ solved33.neighbors solved33.blank_cell ∧
    solved33.swap solved33.blank_cell (Cell.new 0 0) ≠ some solved33 := by
  refine ⟨by decide, by decide, by decide⟩

/-- C7 as amended: `swap(a, b)` rejects a call exactly when neither `a` nor
`b` equals the current blank cell (for in-bounds cells); it does not check
that the non-blank cell is a 4-neighbour of the blank, so physically illegal
teleporting swaps are accepted. `swap` itself provides no adjacency
guarantee, and the call sites do not all restore it: `MySolver::move_to`
can pass a non-adjacent cell (see C5). -/
theorem claim_C7 (s : State) (a b : Cell)
    (ha : s.get_index a < s.pieces.length) (hb : s.get_index b < s.pieces.length) :
    (s.swap a b).isSome = true ↔ (s.blank_cell = a ∨ s.blank_cell = b) := by
  constructor
  · intro h
    by_contra hor
    push_neg at hor
    rw [swap_none_of_not_blank s a b hor.1 hor.2] at h
    exact absurd h (by simp)
  · intro hor
    obtain ⟨l', -, hswap⟩ := swap_eq_some s a b hor ha hb
    simp [hswap]

/-- C7 witness: on the solved 3×3 board, the swap of the blank with the
non-adjacent corner `(0,0)` is accepted, and a swap naming no blank cell is
not. -/
theorem claim_C7_witness :
    ((solved33.swap solved33.blank_cell (Cell.new 0 0)).isSome = true ↔
      (solved33.blank_cell = solved33.blank_cell ∨
        solved33.blank_cell = Cell.new 0 0)) ∧
    ((solved33.swap (Cell.new 0 0) (Cell.new 1 0)).isSome = true ↔
      (solved33.blank_cell = Cell.new 0 0 ∨ solved33.blank_cell = Cell.new 1 0)) :=
  ⟨claim_C7 solved33 solved33.blank_cell (Cell.new 0 0) (by decide) (by decide),
   claim_C7 solved33 (Cell.new 0 0) (Cell.new 1 0) (by decide) (by decide)⟩

/-- C8 counterexample: a 1×1 board has `rows*cols < 2`, yet `State::new(1, 1)`
succeeds (producing a board whose single cell is blank) instead of failing. -/
theorem claim_C8_counterexample :
    1 * 1 < 2 ∧ (State.new 1 1).isSome = true := by decide

/-- C8 as amended: `State::new(rows, cols)` fails exactly when `rows == 0` or
`cols == 0` (the `rows*cols - 1` subtraction underflows and panics); a 1×1
board is accepted even though `rows*cols < 2`, so the degenerate-board
rejection for products below 2 is not implemented. -/
theorem claim_C8 (rows cols : Nat) :
    State.new rows cols = none ↔ rows = 0 ∨ cols = 0 := by
  unfold State.new
  rcases Nat.eq_zero_or_pos (rows * cols) with h | h
  · simp [h, Nat.mul_eq_zero.mp h]
  · have : rows * cols ≠ 0 := by omega
    simp only [this, if_false]
    constructor
    · intro hc; exact absurd hc (by simp)
    · intro hc
      rcases hc with hc | hc <;> simp [hc] at this

/-- C10: an accepted `swap(a, b)` changes only the two named entries and the
`blank_cell` field: dimensions are unchanged, every entry at another flat
index is unchanged, and the arrangement is permuted, so the multiset of
present tags and the single-blank property are preserved. -/
theorem claim_C10 (s : State) (a b : Cell) (s' : State)
    (h : s.swap a b = some s') :
    s'.rows = s.rows ∧ s'.cols = s.cols ∧
    (∀ k, k ≠ s.get_index a → k ≠ s.get_index b → s'.pieces[k]? = s.pieces[k]?) ∧
    s'.pieces.Perm s.pieces ∧
    (∀ p : Piece, s'.pieces.count (some p) = s.pieces.count (some p)) ∧
    (s.pieces.count none = 1 → s'.pieces.count none = 1) := by
  unfold State.swap at h
  by_cases hor : s.blank_cell = a ∨ s.blank_cell = b
  · rw [if_pos hor] at h
    rcases hsw : listSwap s.pieces (s.get_index a) (s.get_index b) with _ | l'
    · rw [hsw] at h; exact absurd h (by simp)
    · rw [hsw] at h
      obtain rfl : ({ s with
          pieces := l',
          blank_cell := if s.blank_cell = a then b else a } : State) = s' := by
        simpa using h
      have hcount := fun x => listSwap_count s.pieces l' _ _ hsw x
      have hperm : l'.Perm s.pieces := (List.perm_iff_count).mpr hcount
      have hcount' : ∀ x : Option Piece, l'.count x = s.pieces.count x := fun x => by
        rw [count_instance_irrel l' x, count_instance_irrel s.pieces x]
        exact hcount x
      refine ⟨rfl, rfl, ?_, hperm, fun p => hcount' (some p), fun h1 => ?_⟩
      · intro k hka hkb
        unfold listSwap at hsw
        rcases hgi : s.pieces.get? (s.get_index a) with _ | pa
        · rw [hgi] at hsw
          exact absurd hsw (by rcases s.pieces.get? (s.get_index b) with _ | pb <;> simp)
        rcases hgj : s.pieces.get? (s.get_index b) with _ | pb
        · rw [hgi, hgj] at hsw
          exact absurd hsw (by simp)
        rw [hgi, hgj] at hsw
        obtain rfl : (s.pieces.set (s.get_index a) pb).set (s.get_index b) pa = l' := by
          simpa using hsw
        rw [List.getElem?_set_ne (fun hh => hkb hh.symm),
          List.getElem?_set_ne (fun hh => hka hh.symm)]
      · rw [hcount' none]; exact h1
  · rw [if_neg hor] at h
    exact absurd h (by simp)

/-- C10 witness: the accepted 2×2 swap of the blank with `(0,1)` keeps the
dimensions, the untouched entries, the tag multiset and the single blank. -/
theorem claim_C10_witness :
    ∃ s', solved22.swap (Cell.new 1 1) (Cell.new 0 1) = some s' ∧
      s'.rows = solved22.rows ∧ s'.cols = solved22.cols ∧
      s'.pieces.count none = 1 := by
  rcases hs : solved22.swap (Cell.new 1 1) (Cell.new 0 1) with _ | s'
  · exact absurd hs (by decide)
  · obtain ⟨h1, h2, -, -, -, h6⟩ := claim_C10 solved22 (Cell.new 1 1) (Cell.new 0 1) s' hs
    exact ⟨s', rfl, h1, h2, h6 (by decide)⟩

/-- C3 counterexample: a state whose canonical key was already visited at an
equal path length (3 = 3) is not skipped by the dequeue guard — the source
compares with strict `<`, so equal-length revisits are expanded again,
contradicting the claimed equal-or-shorter skip. -/
theorem claim_C3_counterexample :
    memoLookup (memoInsert [] (pieceList [1, 0]) 3) (pieceList [1, 0]) = some 3 ∧
    3 ≤ 3 ∧
    visitedSkip (memoInsert [] (pieceList [1, 0]) 3) (pieceList [1, 0]) 3 = false := by
  refine ⟨by decide, by decide, by decide⟩

/-- C3 as amended: in both solvers the dequeue guard skips a dequeued state
exactly when its canonical key was already visited at a strictly shorter path
length; unvisited keys and equal-or-longer previous visits are expanded. -/
theorem claim_C3 (memo : Memo) (key : List (Option Piece)) (len : Nat) :
    visitedSkip memo key len = true ↔
      ∃ c, memoLookup memo key = some c ∧ c < len := by
  unfold visitedSkip
  rcases h : memoLookup memo key with _ | c <;> simp [h]

/-! ### C9: `State::new` builds the solved arrangement -/

theorem newPieces_eq (bi : Nat) :
    ((List.range (bi + 1)).map (fun n => some (Piece.new (n + 1)))).set bi none =
      ((List.range bi).map (fun n => some (Piece.new (n + 1)))) ++ [none] := by
  rw [List.range_succ, List.map_append,
    List.set_append_right _ _ (by simp),
    (by simp : ((List.range bi).map (fun n => some (Piece.new (n + 1)))).length = bi)]
  simp

theorem newPieces_getElem (bi i : Nat) :
    (((List.range bi).map (fun n => some (Piece.new (n + 1)))) ++ [none])[i]? =
      if i < bi then some (some (Piece.new (i + 1)))
      else if i = bi then some none else none := by
  rcases Nat.lt_trichotomy i bi with h | h | h
  · rw [List.getElem?_append_left (by simp [h]), List.getElem?_map,
      List.getElem?_range h]
    simp [h]
  · subst h
    rw [List.getElem?_append_right (by simp)]
    simp
  · rw [if_neg (by omega), if_neg (by omega)]
    exact List.getElem?_eq_none (by simp; omega)

/-- C9: for all `rows, cols ≥ 1` with `rows*cols ≥ 2`, `State::new` succeeds
and produces a state that `is_finished`, with exactly one absent entry, that
entry at the last row-major index, `blank_cell` equal to that cell, and every
present piece `k` at flat index `k - 1`. -/
theorem claim_C9 (rows cols : Nat) (h1 : 1 ≤ rows) (h2 : 1 ≤ cols)
    (h3 : 2 ≤ rows * cols) (st : State) (hnew : State.new rows cols = some st) :
    st.is_finished = true ∧
    st.pieces.count none = 1 ∧
    st.pieces[rows * cols - 1]? = some none ∧
    st.blank_cell = Cell.new (cols - 1) (rows - 1) ∧
    st.blank_cell = cellOfIndex (rows * cols - 1) rows cols ∧
    ∀ k, 1 ≤ k → k ≤ rows * cols - 1 →
      st.pieces[k - 1]? = some (some (Piece.new k)) := by
  have hn : ¬ rows * cols = 0 := by omega
  unfold State.new at hnew
  rw [if_neg hn] at hnew
  obtain rfl : State.mk (((List.range (rows * cols - 1 + 1)).map
      (fun n => some (Piece.new (n + 1)))).set (rows * cols - 1) none)
      rows cols (cellOfIndex (rows * cols - 1) rows cols) = st := by
    simpa using hnew
  dsimp only
  obtain ⟨r, rfl⟩ : ∃ r, rows = r + 1 := ⟨rows - 1, by omega⟩
  obtain ⟨c, rfl⟩ : ∃ c, cols = c + 1 := ⟨cols - 1, by omega⟩
  obtain ⟨m, hm⟩ : ∃ m, r * c = m := ⟨r * c, rfl⟩
  have hbi : (r + 1) * (c + 1) - 1 = c + r * (c + 1) := by
    have : (r + 1) * (c + 1) = r * c + r + c + 1 := by ring
    have : (r + 1) * (c + 1) = m + r + c + 1 := by rw [this, hm]
    have h4 : r * (c + 1) = r * c + r := by ring
    have h4' : r * (c + 1) = m + r := by rw [h4, hm]
    omega
  have hblank : cellOfIndex ((r + 1) * (c + 1) - 1) (r + 1) (c + 1) =
      Cell.new c r := by
    unfold cellOfIndex
    rw [hbi, Nat.add_mul_mod_self_right, Nat.mod_eq_of_lt (by omega),
      Nat.add_mul_div_right _ _ (by omega), Nat.div_eq_of_lt (by omega),
      Nat.zero_add]
  rw [newPieces_eq]
  refine ⟨?_, ?_, ?_, ?_, ?_, ?_⟩
  · unfold State.is_finished
    rw [Bool.and_eq_true]
    constructor
    · simp only [hblank]
      simp [Cell.new]
    · rw [List.all_eq_true]
      rintro ⟨i, p⟩ hx
      rw [List.mem_enum_iff_getElem?] at hx
      rw [newPieces_getElem] at hx
      by_cases hi : i < (r + 1) * (c + 1) - 1
      · rw [if_pos hi] at hx
        obtain rfl : p = some (Piece.new (i + 1)) := by simpa using hx.symm
        simp [Piece.new]
      · rcases eq_or_ne i ((r + 1) * (c + 1) - 1) with rfl | hne
        · rw [if_neg hi, if_pos rfl] at hx
          obtain rfl : p = none := by simpa using hx.symm
          simp
        · rw [if_neg hi, if_neg hne] at hx
          exact absurd hx (by simp)
  · rw [List.count_append]
    have : List.count none (((List.range ((r + 1) * (c + 1) - 1)).map
        (fun n => some (Piece.new (n + 1))))) = 0 := by
      rw [List.count_eq_zero]
      intro hmem
      obtain ⟨y, -, hy⟩ := List.mem_map.mp hmem
      exact absurd hy (by simp)
    rw [this]
    simp
  · rw [newPieces_getElem]
    simp
  · exact hblank
  · rw [hblank]
  · intro k hk1 hk2
    rw [newPieces_getElem, if_pos (by omega)]
    have : k - 1 + 1 = k := by omega
    rw [this]

/-! ### Neighbour membership facts -/

theorem mem_neighbors_at_bounds (s : State) (x y : Nat) (c : Cell)
    (h : c ∈ s.neighbors_at x y) : c.x < s.cols ∧ c.y < s.rows := by
  unfold State.neighbors_at at h
  obtain ⟨k, hk, hfk⟩ := List.mem_filterMap.mp h
  have hk4 : k < 4 := List.mem_range.mp hk
  interval_cases k <;>
    · simp only [List.getD] at hfk
      split at hfk
      · exact absurd hfk (by simp)
      · obtain rfl : Cell.new _ _ = c := by simpa using hfk
        constructor <;> simp_all [Cell.new] <;> omega

theorem mem_neighbors_at_dist (s : State) (x y : Nat) (c : Cell)
    (h : c ∈ s.neighbors_at x y) :
    Cell.manhattan_distance (Cell.new x y) c = 1 := by
  unfold State.neighbors_at at h
  obtain ⟨k, hk, hfk⟩ := List.mem_filterMap.mp h
  have hk4 : k < 4 := List.mem_range.mp hk
  unfold Cell.manhattan_distance
  interval_cases k <;>
    · simp only [List.getD] at hfk
      split at hfk
      · exact absurd hfk (by simp)
      · obtain rfl : Cell.new _ _ = c := by simpa using hfk
        simp_all [Cell.new]
        all_goals omega

theorem as_index_lt (c : Cell) (rows cols : Nat)
    (hx : c.x < cols) (hy : c.y < rows) : c.as_index rows cols < rows * cols := by
  unfold Cell.as_index
  have h1 : c.y * cols + c.x < (c.y + 1) * cols := by
    rw [Nat.succ_mul]; omega
  exact Nat.lt_of_lt_of_le h1 (Nat.mul_le_mul_right cols hy)

/-- A swap of the blank with one of its neighbours always succeeds on a
well-formed state and preserves well-formedness; the blank moves to the
neighbour. -/
theorem swap_blank_neighbor (st : State) (next : Cell) (hwf : StateWF st)
    (hmem : next ∈ st.neighbors st.blank_cell) :
    ∃ ns, st.swap st.blank_cell next = some ns ∧ StateWF ns ∧
      ns.rows = st.rows ∧ ns.cols = st.cols ∧ ns.blank_cell = next ∧
      ns.pieces.length = st.pieces.length := by
  obtain ⟨hlen, hbx, hby⟩ := hwf
  obtain ⟨hnx, hny⟩ := mem_neighbors_at_bounds st _ _ next hmem
  have hib : st.get_index st.blank_cell < st.pieces.length := by
    rw [hlen]; exact as_index_lt _ _ _ hbx hby
  have hin : st.get_index next < st.pieces.length := by
    rw [hlen]; exact as_index_lt _ _ _ hnx hny
  obtain ⟨l', hl', hswap⟩ := swap_eq_some st st.blank_cell next (Or.inl rfl) hib hin
  obtain ⟨l'', hl'', hlen', -⟩ :=
    listSwap_eq_some st.pieces (st.get_index st.blank_cell) (st.get_index next) hib hin
  rw [hl'] at hl''
  obtain rfl : l' = l'' := by simpa using hl''
  refine ⟨_, hswap, ⟨?_, ?_, ?_⟩, rfl, rfl, by simp, ?_⟩
  · simpa [hlen'] using hlen
  · simpa using hnx
  · simpa using hny
  · simpa using hlen'

theorem replaySlides_append (s : State) (r : List Cell) (m : Cell) :
    replaySlides s (r ++ [m]) = (replaySlides s r).bind fun t =>
      if m ∈ t.neighbors t.blank_cell then t.swap t.blank_cell m else none := by
  unfold replaySlides
  rw [List.foldlM_append]
  rcases List.foldlM
    (fun st m => if m ∈ st.neighbors st.blank_cell then st.swap st.blank_cell m
      else none) s r with _ | t <;> simp

theorem mem_of_mapM_option {α β : Type} (f : α → Option β) :
    ∀ (l : List α) (out : List β), l.mapM f = some out →
      ∀ y ∈ out, ∃ x ∈ l, f x = some y := by
  intro l
  induction l with
  | nil =>
    intro out h y hy
    rw [List.mapM_nil] at h
    obtain rfl : out = [] := by simpa using h.symm
    exact absurd hy (by simp)
  | cons x xs ih =>
    intro out h y hy
    rw [List.mapM_cons] at h
    rcases hfx : f x with _ | b
    · rw [hfx] at h; exact absurd h (by simp)
    rcases hxs : xs.mapM f with _ | bs
    · rw [hfx, hxs] at h; exact absurd h (by simp)
    rw [hfx, hxs] at h
    obtain rfl : b :: bs = out := by simpa using h
    rcases List.mem_cons.mp hy with rfl | hybs
    · exact ⟨x, by simp, hfx⟩
    · obtain ⟨x', hx', hfx'⟩ := ih bs hxs y hybs
      exact ⟨x', by simp [hx'], hfx'⟩

/-! ### Heap membership facts -/

theorem siftUpGo_mem (elt : HeapEntry) (start : Nat) :
    ∀ (fuel : Nat) (data : List HeapEntry) (pos : Nat),
      ∀ y ∈ (siftUpGo elt start fuel data pos).1, y ∈ data ∨ y = elt := by
  intro fuel
  induction fuel with
  | zero =>
    intro data pos y hy
    exact List.mem_or_eq_of_mem_set hy
  | succ fuel ih =>
    intro data pos y hy
    unfold siftUpGo at hy
    split at hy
    · dsimp only at hy
      split at hy
      · rename_i pe hpe
        split at hy
        · exact List.mem_or_eq_of_mem_set hy
        · rcases ih (data.set pos pe) ((pos - 1) / 2) y hy with hin | rfl
          · rcases List.mem_or_eq_of_mem_set hin with hin | rfl
            · exact Or.inl hin
            · exact Or.inl (List.get?_mem hpe)
          · exact Or.inr rfl
      · exact List.mem_or_eq_of_mem_set hy
    · exact List.mem_or_eq_of_mem_set hy

theorem siftDownDescend_mem (end_ : Nat) :
    ∀ (fuel : Nat) (data : List HeapEntry) (pos : Nat),
      ∀ y ∈ (siftDownDescend end_ fuel data pos).1, y ∈ data := by
  intro fuel
  induction fuel with
  | zero => intro data pos y hy; exact hy
  | succ fuel ih =>
    intro data pos y hy
    unfold siftDownDescend at hy
    dsimp only at hy
    split at hy
    · split at hy
      · rename_i cl cr hcl hcr
        have := ih _ _ y hy
        rcases List.mem_or_eq_of_mem_set this with hin | rfl
        · exact hin
        · split
          · exact List.get?_mem hcr
          · exact List.get?_mem hcl
      · exact hy
    · split at hy
      · split at hy
        · rename_i ce hce
          rcases List.mem_or_eq_of_mem_set hy with hin | rfl
          · exact hin
          · exact List.get?_mem hce
        · exact hy
      · exact hy

theorem heapPush_mem (data : List HeapEntry) (item : HeapEntry) :
    ∀ y ∈ heapPush data item, y ∈ data ∨ y = item := by
  intro y hy
  unfold heapPush siftUpAux at hy
  rcases siftUpGo_mem item 0 _ _ _ y hy with hin | rfl
  · rcases List.mem_append.mp hin with h | h
    · exact Or.inl h
    · exact Or.inr (by simpa using h)
  · exact Or.inr rfl

theorem heapPop_mem (data : List HeapEntry) (e : HeapEntry)
    (rest : List HeapEntry) (h : heapPop data = some (e, rest)) :
    e ∈ data ∧ ∀ y ∈ rest, y ∈ data := by
  unfold heapPop at h
  rcases data with _ | ⟨d, ds⟩
  · exact absurd h (by simp)
  dsimp only at h
  split at h
  · obtain ⟨rfl, rfl⟩ : (d :: ds).getLast (List.cons_ne_nil d ds) = e ∧
        ([] : List HeapEntry) = rest := by
      have h2 := Option.some_inj.mp h
      exact ⟨congrArg Prod.fst h2, congrArg Prod.snd h2⟩
    exact ⟨List.getLast_mem _, by simp⟩
  · rename_i root rs hrest
    obtain ⟨rfl, rfl⟩ : root = e ∧
        (siftUpAux (siftDownGo (d :: ds).dropLast (d :: ds).dropLast.length 0).1
          ((d :: ds).getLast (List.cons_ne_nil d ds)) 0
          (siftDownGo (d :: ds).dropLast (d :: ds).dropLast.length 0).2).1 = rest := by
      have h2 := Option.some_inj.mp h
      exact ⟨congrArg Prod.fst h2, congrArg Prod.snd h2⟩
    constructor
    · exact List.mem_of_mem_dropLast (hrest ▸ List.mem_cons_self root rs)
    · intro y hy
      unfold siftUpAux at hy
      rcases siftUpGo_mem _ 0 _ _ _ y hy with hin | rfl
      · exact List.mem_of_mem_dropLast
          (siftDownDescend_mem _ _ _ _ y (by simpa [siftDownGo] using hin))
      · exact List.getLast_mem _

/-! ### Adjacency soundness of the two search loops -/

theorem bfsLoop_adj (s expected : State) :
    ∀ (fuel : Nat) (q : List (State × List Cell)) (memo : Memo),
      (∀ e ∈ q, replaySlides s e.2 = some e.1 ∧ StateWF e.1) →
      ∀ r, bfsLoop expected fuel q memo = some r →
        ∃ t, replaySlides s r = some t := by
  intro fuel
  induction fuel with
  | zero =>
    intro q memo hq r h
    exact absurd h (by simp [bfsLoop])
  | succ fuel ih =>
    intro q memo hq r h
    rcases q with _ | ⟨⟨state, routes⟩, rest⟩
    · obtain rfl : ([] : List Cell) = r := by simpa [bfsLoop] using h
      exact ⟨s, rfl⟩
    unfold bfsLoop at h
    split at h
    · obtain rfl := Option.some_inj.mp h
      exact ⟨state, (hq (state, routes) (by simp)).1⟩
    split at h
    · exact ih rest memo (fun e he => hq e (by simp [he])) r h
    split at h
    · rename_i newEntries hexp
      apply ih _ _ ?_ r h
      intro e he
      rcases List.mem_append.mp he with he | he
      · exact hq e (by simp [he])
      · obtain ⟨hrepS, hwfS⟩ := hq (state, routes) (by simp)
        obtain ⟨next, hnextmem, hfe⟩ := mem_of_mapM_option _ _ _ hexp e he
        rcases hsw : state.swap state.blank_cell next with _ | ns
        · rw [hsw] at hfe
          exact absurd hfe (by simp)
        · rw [hsw] at hfe
          obtain rfl : (ns, routes ++ [next]) = e := by simpa using hfe
          obtain ⟨ns', hns', hwf', -⟩ := swap_blank_neighbor state next hwfS hnextmem
          obtain rfl : ns = ns' := by
            rw [hsw] at hns'
            exact Option.some_inj.mp hns'
          refine ⟨?_, hwf'⟩
          rw [replaySlides_append, hrepS]
          simp [hnextmem, hsw]
    · exact absurd h (by simp)

theorem foldPush_mem (self : AStarSolver) (expected state : State)
    (routes : List Cell) :
    ∀ (l : List Cell) (heap h' : List HeapEntry),
      l.foldlM
        (fun h next =>
          (state.swap state.blank_cell next).bind fun next_state =>
            (self.heuristic expected next_state).map fun next_cost =>
              heapPush h (MAX_COST - next_cost, next_state, routes ++ [next]))
        heap = some h' →
      ∀ y ∈ h', y ∈ heap ∨ ∃ next ∈ l, ∃ ns,
        state.swap state.blank_cell next = some ns ∧
        y.2.1 = ns ∧ y.2.2 = routes ++ [next] := by
  intro l
  induction l with
  | nil =>
    intro heap h' h y hy
    obtain rfl : heap = h' := by simpa using h
    exact Or.inl hy
  | cons x xs ih =>
    intro heap h' h y hy
    rw [List.foldlM_cons] at h
    rcases hsw : state.swap state.blank_cell x with _ | ns
    · rw [hsw] at h
      exact absurd h (by simp)
    rw [hsw] at h
    simp only [Option.some_bind] at h
    rcases hheu : self.heuristic expected ns with _ | hc
    · rw [hheu] at h
      exact absurd h (by simp)
    rw [hheu] at h
    simp only [Option.map_some'] at h
    have h2 : xs.foldlM
        (fun h next =>
          (state.swap state.blank_cell next).bind fun next_state =>
            (self.heuristic expected next_state).map fun next_cost =>
              heapPush h (MAX_COST - next_cost, next_state, routes ++ [next]))
        (heapPush heap (MAX_COST - hc, ns, routes ++ [x])) = some h' := by
      simpa using h
    rcases ih _ _ h2 y hy with hin | ⟨next, hnl, ns', hsw', hy1, hy2⟩
    · rcases heapPush_mem _ _ y hin with hin2 | rfl
      · exact Or.inl hin2
      · exact Or.inr ⟨x, by simp, ns, hsw, rfl, rfl⟩
    · exact Or.inr ⟨next, by simp [hnl], ns', hsw', hy1, hy2⟩

theorem astarLoop_adj (self : AStarSolver) (s expected : State) :
    ∀ (fuel : Nat) (heap : List HeapEntry) (memo : Memo),
      (∀ e ∈ heap, replaySlides s e.2.2 = some e.2.1 ∧ StateWF e.2.1) →
      ∀ r, astarLoop self expected fuel heap memo = some r →
        ∃ t, replaySlides s r = some t := by
  intro fuel
  induction fuel with
  | zero =>
    intro heap memo hq r h
    exact absurd h (by simp [astarLoop])
  | succ fuel ih =>
    intro heap memo hq r h
    unfold astarLoop at h
    split at h
    · obtain rfl : ([] : List Cell) = r := by simpa using h
      exact ⟨s, rfl⟩
    rename_i popres cost state routes rest hpop
    obtain ⟨hmem_e, hsub⟩ := heapPop_mem heap _ _ hpop
    obtain ⟨hrepS, hwfS⟩ := hq _ hmem_e
    split at h
    · obtain rfl := Option.some_inj.mp h
      exact ⟨state, hrepS⟩
    split at h
    · exact ih rest memo (fun e he => hq e (hsub e he)) r h
    split at h
    · rename_i heap2 hexp
      apply ih heap2 _ ?_ r h
      intro e he
      rcases foldPush_mem self expected state routes _ rest heap2 hexp e he
        with hin | ⟨next, hnextmem, ns, hsw, he1, he2⟩
      · exact hq e (hsub e hin)
      · obtain ⟨ns', hns', hwf', -⟩ := swap_blank_neighbor state next hwfS hnextmem
        obtain rfl : ns = ns' := by
          rw [hsw] at hns'
          exact Option.some_inj.mp hns'
        rw [he1, he2]
        refine ⟨?_, hwf'⟩
        rw [replaySlides_append, hrepS]
        simp [hnextmem, hsw]
    · exact absurd h (by simp)

/-- C5 counterexample: `MySolver::solve`, on the valid 2×3 scramble
`[1, 2, 4, blank, 5, 3]` (reachable from solved by 10 legal slides), emits
`[(2,1), (2,0), (2,1), (1,1)]`; its first target `(2,1)` is not a 4-neighbour
of the blank `(0,1)` at the moment it is applied, so the adjacency-checked
replay of the emitted sequence fails: the adjacency contract is violated. -/
theorem claim_C5_counterexample :
    State.new 2 3 = some solved23 ∧
    replaySlides solved23 c5ScramblePath = some scramble23 ∧
    (MySolver.mk scramble23).solve = some c5Moves ∧
    c5Moves[0]? = some (Cell.new 2 1) ∧
    ¬ Cell.new 2 1 ∈ scramble23.neighbors scramble23.blank_cell ∧
    replaySlides scramble23 c5Moves = none := by
  refine ⟨by decide, by decide, by decide, by decide, by decide, by decide⟩

/-- C5 as amended: `BFSSolver` and `AStarSolver` satisfy the adjacency
contract — on any well-formed input state, every move sequence their loops
return replays from that state with each emitted target a 4-neighbour of the
blank at the moment it is applied (`replaySlides` succeeds). `MySolver` does
not satisfy the contract in general (see the counterexample). -/
theorem claim_C5 (s expected : State) (hwf : StateWF s) :
    (∀ fuel r, (BFSSolver.mk s).solve_with_expected expected fuel = some r →
      ∃ t, replaySlides s r = some t) ∧
    (∀ fuel r, (AStarSolver.mk s).solve_with_expected expected fuel = some r →
      ∃ t, replaySlides s r = some t) := by
  constructor
  · intro fuel r h
    apply bfsLoop_adj s expected fuel [(s, [])] [] ?_ r h
    intro e he
    obtain rfl : e = (s, ([] : List Cell)) := by simpa using he
    exact ⟨rfl, hwf⟩
  · intro fuel r h
    unfold AStarSolver.solve_with_expected at h
    rcases hheu : (AStarSolver.mk s).heuristic expected (AStarSolver.mk s).states
      with _ | cost
    · rw [hheu] at h
      exact absurd h (by simp)
    rw [hheu] at h
    apply astarLoop_adj (AStarSolver.mk s) s expected fuel _ [] ?_ r (by simpa using h)
    intro e he
    rcases heapPush_mem [] (MAX_COST - cost, (AStarSolver.mk s).states, []) e he
      with hin | rfl
    · exact absurd hin (by simp)
    · exact ⟨rfl, hwf⟩

/-- C5 witness: on the valid 2×2 state `[1, 2, blank, 3]`, both search solvers
return the single move `(1,1)`, and its adjacency-checked replay succeeds. -/
theorem claim_C5_witness :
    (∃ t, replaySlides oneAway22 [Cell.new 1 1] = some t) ∧
    (∃ t, replaySlides oneAway22 [Cell.new 1 1] = some t) :=
  ⟨(claim_C5 oneAway22 solved22 ⟨by decide, by decide, by decide⟩).1 10
      [Cell.new 1 1] (by decide),
   (claim_C5 oneAway22 solved22 ⟨by decide, by decide, by decide⟩).2 10
      [Cell.new 1 1] (by decide)⟩

/-! ### Arithmetic and lookup facts for the heuristic -/

theorem as_index_cellOfIndex (i r c : Nat) :
    (cellOfIndex i r c).as_index r c = i := by
  unfold cellOfIndex Cell.as_index Cell.new
  dsimp only
  rw [Nat.mul_comm]
  exact Nat.div_add_mod i c

theorem cellOfIndex_as_index (cl : Cell) (r c : Nat) (hx : cl.x < c) :
    cellOfIndex (cl.as_index r c) r c = cl := by
  unfold cellOfIndex Cell.as_index Cell.new
  rcases cl with ⟨x, y⟩
  dsimp only
  congr 1
  · rw [Nat.mul_comm, Nat.mul_add_mod, Nat.mod_eq_of_lt hx]
  · rw [Nat.mul_comm, Nat.mul_add_div (by omega), Nat.div_eq_of_lt hx]
    omega

theorem manhattan_triangle (a b c : Cell) :
    Cell.manhattan_distance a b ≤
      Cell.manhattan_distance a c + Cell.manhattan_distance c b := by
  unfold Cell.manhattan_distance
  omega

theorem manhattan_comm (a b : Cell) :
    Cell.manhattan_distance a b = Cell.manhattan_distance b a := by
  unfold Cell.manhattan_distance
  omega

theorem manhattan_self (a : Cell) : Cell.manhattan_distance a a = 0 := by
  unfold Cell.manhattan_distance
  omega

theorem findIdx_nodup {α : Type} [DecidableEq α] (l : List α) (hnd : l.Nodup)
    (j : Nat) (hj : j < l.length) :
    l.findIdx? (fun p => p = l[j]) = some j := by
  rw [List.findIdx?_eq_some_iff_getElem]
  refine ⟨hj, by simp, ?_⟩
  intro k hkj
  simp only [decide_eq_true_eq]
  intro he
  have := (hnd.getElem_inj_iff).mp he
  omega

theorem mapM_eq_some_map {α β : Type} (f : α → Option β) (v : α → β) :
    ∀ l : List α, (∀ x ∈ l, f x = some (v x)) → l.mapM f = some (l.map v) := by
  intro l
  induction l with
  | nil => intro _; rw [List.mapM_nil]; rfl
  | cons x xs ih =>
    intro hall
    rw [List.mapM_cons, hall x (by simp), ih (fun z hz => hall z (by simp [hz]))]
    rfl

theorem sum_map_add_nat {α : Type} (f g : α → Nat) :
    ∀ l : List α, (l.map fun i => f i + g i).sum = (l.map f).sum + (l.map g).sum := by
  intro l
  induction l with
  | nil => simp
  | cons x xs ih => simp [ih]; omega

theorem sum_map_indicator (j : Nat) :
    ∀ n : Nat, ((List.range n).map fun i => if i = j then (1 : Nat) else 0).sum =
      if j < n then 1 else 0 := by
  intro n
  induction n with
  | zero => simp
  | succ n ih =>
    rw [List.range_succ, List.map_append, List.sum_append, ih]
    simp only [List.map_cons, List.map_nil, List.sum_cons, List.sum_nil]
    split_ifs <;> omega

theorem sum_le_sum_map {α : Type} (f g : α → Nat) :
    ∀ l : List α, (∀ x ∈ l, f x ≤ g x) → (l.map f).sum ≤ (l.map g).sum := by
  intro l
  induction l with
  | nil => intro _; simp
  | cons x xs ih =>
    intro hall
    simp only [List.map_cons, List.sum_cons]
    exact Nat.add_le_add (hall x (by simp))
      (ih fun z hz => hall z (by simp [hz]))

theorem heuristic_eq_sum (self : AStarSolver) (g cur : State) (v : Nat → Nat)
    (hv : ∀ i ∈ List.range (self.states.rows * self.states.cols),
      (cur.find_piece
        (g.get_piece (cellOfIndex i self.states.rows self.states.cols))).map
        (fun pos =>
          (cellOfIndex i self.states.rows self.states.cols).manhattan_distance pos)
        = some (v i)) :
    self.heuristic g cur =
      some (((List.range (self.states.rows * self.states.cols)).map v).sum) := by
  unfold AStarSolver.heuristic
  rw [mapM_eq_some_map _ v _ hv]
  rfl

theorem find_piece_eq_of_getElem (cur : State) (j : Nat)
    (hnd : cur.pieces.Nodup) (hj : j < cur.pieces.length) :
    cur.find_piece cur.pieces[j] = some (cellOfIndex j cur.rows cur.cols) := by
  unfold State.find_piece
  rw [findIdx_nodup cur.pieces hnd j hj]
  rfl

theorem get_piece_cellOfIndex (g : State) (i : Nat) (hi : i < g.pieces.length) :
    g.get_piece (cellOfIndex i g.rows g.cols) = g.pieces[i] := by
  unfold State.get_piece State.get_index
  rw [as_index_cellOfIndex, List.getD_eq_getElem _ _ hi]

theorem swap_pieces_char (cur cur₁ : State) (a b : Cell)
    (h : cur.swap a b = some cur₁) :
    cur₁.rows = cur.rows ∧ cur₁.cols = cur.cols ∧
    cur₁.pieces.length = cur.pieces.length ∧
    cur₁.pieces[cur.get_index b]? = cur.pieces[cur.get_index a]? ∧
    cur₁.pieces[cur.get_index a]? = cur.pieces[cur.get_index b]? ∧
    (∀ k, k ≠ cur.get_index a → k ≠ cur.get_index b → cur₁.pieces[k]? = cur.pieces[k]?) ∧
    cur₁.pieces.Perm cur.pieces := by
  unfold State.swap at h
  by_cases hor : cur.blank_cell = a ∨ cur.blank_cell = b
  · rw [if_pos hor] at h
    rcases hsw : listSwap cur.pieces (cur.get_index a) (cur.get_index b) with _ | l'
    · rw [hsw] at h
      exact absurd h (by simp)
    rw [hsw] at h
    obtain rfl : ({ cur with
        pieces := l',
        blank_cell := if cur.blank_cell = a then b else a } : State) = cur₁ := by
      simpa using h
    obtain ⟨hia, hib⟩ := listSwap_isSome_bounds cur.pieces _ _ l' hsw
    obtain ⟨l'', hl'', hlen, hja, hji, hother⟩ :=
      listSwap_eq_some cur.pieces (cur.get_index a) (cur.get_index b) hia hib
    rw [hsw] at hl''
    obtain rfl : l' = l'' := by simpa using hl''
    have hcnt := fun x => listSwap_count cur.pieces _ _ _ hsw x
    exact ⟨rfl, rfl, hlen, hja, hji, hother, List.perm_iff_count.mpr hcnt⟩
  · rw [if_neg hor] at h
    exact absurd h (by simp)

theorem getElem_of_getElem? {α : Type} (l : List α) (i : Nat) (a : α)
    (h : l[i]? = some a) (hlt : i < l.length) : l[i] = a := by
  have h0 := List.getElem?_eq_getElem hlt
  rw [h] at h0
  exact Option.some_inj.mp h0.symm

theorem find_piece_eq_of_getElem? (cur : State) (j : Nat) (needle : Option Piece)
    (hnd : cur.pieces.Nodup) (hj : cur.pieces[j]? = some needle) :
    cur.find_piece needle = some (cellOfIndex j cur.rows cur.cols) := by
  have hlt : j < cur.pieces.length := by
    by_contra hc
    rw [List.getElem?_eq_none (by omega)] at hj
    exact absurd hj (by simp)
  have : cur.pieces[j] = needle := by
    have := List.getElem?_eq_getElem hlt
    rw [hj] at this
    exact (Option.some_inj.mp this).symm
  rw [← this]
  exact find_piece_eq_of_getElem cur j hnd hlt

theorem get_piece_cellOfIndex? (g : State) (i : Nat) (p : Option Piece)
    (hi : g.pieces[i]? = some p) :
    g.get_piece (cellOfIndex i g.rows g.cols) = p := by
  have hlt : i < g.pieces.length := by
    by_contra hc
    rw [List.getElem?_eq_none (by omega)] at hi
    exact absurd hi (by simp)
  rw [get_piece_cellOfIndex g i hlt]
  have := List.getElem?_eq_getElem hlt
  rw [hi] at this
  exact (Option.some_inj.mp this).symm

/-- One legal slide changes the heuristic by at most 2: the slid tile's term
and the blank's term each change by at most 1 (Manhattan triangle
inequality), and no other term changes — this is where the factor 2, rather
than the claimed factor 1, comes from, since the heuristic also sums the
blank's displacement. -/
theorem heuristic_swap_bound (self : AStarSolver) (g cur cur₁ : State) (m : Cell)
    (hgR : g.rows = self.states.rows) (hgC : g.cols = self.states.cols)
    (hglen : g.pieces.length = self.states.rows * self.states.cols)
    (hgnd : g.pieces.Nodup)
    (hperm : cur.pieces.Perm g.pieces)
    (hwf : StateWF cur)
    (hcurR : cur.rows = self.states.rows) (hcurC : cur.cols = self.states.cols)
    (hmem : m ∈ cur.neighbors cur.blank_cell)
    (hsw : cur.swap cur.blank_cell m = some cur₁)
    (h₁ : Nat) (hh₁ : self.heuristic g cur₁ = some h₁) :
    ∃ h, self.heuristic g cur = some h ∧ h ≤ h₁ + 2 := by
  have hcnd : cur.pieces.Nodup := hperm.nodup_iff.mpr hgnd
  obtain ⟨hculen0, hbx, hby⟩ := hwf
  obtain ⟨hmx, hmy⟩ := mem_neighbors_at_bounds cur _ _ m hmem
  have hib : cur.get_index cur.blank_cell < cur.pieces.length := by
    rw [hculen0]; exact as_index_lt _ _ _ hbx hby
  have him : cur.get_index m < cur.pieces.length := by
    rw [hculen0]; exact as_index_lt _ _ _ hmx hmy
  have hdist1 : Cell.manhattan_distance cur.blank_cell m = 1 := by
    have h := mem_neighbors_at_dist cur cur.blank_cell.x cur.blank_cell.y m hmem
    have he : Cell.new cur.blank_cell.x cur.blank_cell.y = cur.blank_cell := rfl
    rw [he] at h
    exact h
  have hbm : cur.blank_cell ≠ m := by
    intro he
    rw [he, manhattan_self] at hdist1
    exact absurd hdist1 (by simp)
  have hii : cur.get_index cur.blank_cell ≠ cur.get_index m := by
    intro he
    apply hbm
    have e1 := cellOfIndex_as_index cur.blank_cell cur.rows cur.cols hbx
    have e2 := cellOfIndex_as_index m cur.rows cur.cols hmx
    unfold State.get_index at he
    rw [← e1, ← e2, he]
  obtain ⟨c1R, c1C, c1len, hatB, hatA, hothers, hperm1⟩ :=
    swap_pieces_char cur cur₁ cur.blank_cell m hsw
  have hc1nd : cur₁.pieces.Nodup := hperm1.nodup_iff.mpr hcnd
  obtain ⟨pA, hpA⟩ : ∃ p, cur.pieces[cur.get_index cur.blank_cell]? = some p :=
    ⟨_, List.getElem?_eq_getElem hib⟩
  obtain ⟨pB, hpB⟩ : ∃ p, cur.pieces[cur.get_index m]? = some p :=
    ⟨_, List.getElem?_eq_getElem him⟩
  have hAmem : pA ∈ g.pieces :=
    hperm.mem_iff.mp (List.get?_mem (by rw [List.get?_eq_getElem?]; exact hpA))
  have hBmem : pB ∈ g.pieces :=
    hperm.mem_iff.mp (List.get?_mem (by rw [List.get?_eq_getElem?]; exact hpB))
  obtain ⟨iA, hiAlt, hgA0⟩ := List.getElem_of_mem hAmem
  obtain ⟨iB, hiBlt, hgB0⟩ := List.getElem_of_mem hBmem
  have hgA : g.pieces[iA]? = some pA := by
    rw [List.getElem?_eq_getElem hiAlt, hgA0]
  have hgB : g.pieces[iB]? = some pB := by
    rw [List.getElem?_eq_getElem hiBlt, hgB0]
  have hABne : pA ≠ pB := by
    intro he
    apply hii
    apply hcnd.getElem_inj_iff.mp
    show cur.pieces[cur.get_index cur.blank_cell] = cur.pieces[cur.get_index m]
    rw [getElem_of_getElem? cur.pieces _ _ hpA hib,
      getElem_of_getElem? cur.pieces _ _ hpB him]
    exact he
  have hgidx : ∀ i, i < self.states.rows * self.states.cols →
      g.pieces[i]? =
        some (g.pieces.getD i none) := by
    intro i hi
    rw [List.getD_eq_getElem _ _ (by omega : i < g.pieces.length)]
    exact List.getElem?_eq_getElem _
  have hneed : ∀ i, i < self.states.rows * self.states.cols →
      g.get_piece (cellOfIndex i self.states.rows self.states.cols) =
        g.pieces.getD i none := by
    intro i hi
    rw [← hgR, ← hgC]
    exact get_piece_cellOfIndex? g i _ (hgidx i hi)
  have key : ∀ i, i < self.states.rows * self.states.cols →
      ∃ ci ci',
        cur.find_piece
          (g.get_piece (cellOfIndex i self.states.rows self.states.cols)) = some ci ∧
        cur₁.find_piece
          (g.get_piece (cellOfIndex i self.states.rows self.states.cols)) = some ci' ∧
        Cell.manhattan_distance ci' ci ≤
          (if i = iA then 1 else 0) + (if i = iB then 1 else 0) := by
    intro i hi
    have hglti : i < g.pieces.length := by omega
    have hneedi : g.get_piece (cellOfIndex i self.states.rows self.states.cols) =
        g.pieces.getD i none := hneed i hi
    have hgival : g.pieces[i]? = some (g.pieces.getD i none) := hgidx i hi
    rcases eq_or_ne i iA with rfl | hiAne
    · have hvA : g.pieces.getD i none = pA := by
        have := hgival
        rw [hgA] at this
        exact (Option.some_inj.mp this).symm
      refine ⟨cellOfIndex (cur.get_index cur.blank_cell) cur.rows cur.cols,
              cellOfIndex (cur.get_index m) cur₁.rows cur₁.cols, ?_, ?_, ?_⟩
      · rw [hneedi, hvA]
        exact find_piece_eq_of_getElem? cur _ pA hcnd hpA
      · rw [hneedi, hvA]
        exact find_piece_eq_of_getElem? cur₁ _ pA hc1nd (by rw [hatB]; exact hpA)
      · rw [if_pos rfl, c1R, c1C]
        have e1 : cellOfIndex (cur.get_index m) cur.rows cur.cols = m :=
          cellOfIndex_as_index m _ _ hmx
        have e2 : cellOfIndex (cur.get_index cur.blank_cell) cur.rows cur.cols =
            cur.blank_cell := cellOfIndex_as_index _ _ _ hbx
        rw [e1, e2, manhattan_comm, hdist1]
        omega
    · rcases eq_or_ne i iB with rfl | hiBne
      · have hvB : g.pieces.getD i none = pB := by
          have := hgival
          rw [hgB] at this
          exact (Option.some_inj.mp this).symm
        refine ⟨cellOfIndex (cur.get_index m) cur.rows cur.cols,
                cellOfIndex (cur.get_index cur.blank_cell) cur₁.rows cur₁.cols,
                ?_, ?_, ?_⟩
        · rw [hneedi, hvB]
          exact find_piece_eq_of_getElem? cur _ pB hcnd hpB
        · rw [hneedi, hvB]
          exact find_piece_eq_of_getElem? cur₁ _ pB hc1nd (by rw [hatA]; exact hpB)
        · rw [if_pos rfl, c1R, c1C]
          have e1 : cellOfIndex (cur.get_index m) cur.rows cur.cols = m :=
            cellOfIndex_as_index m _ _ hmx
          have e2 : cellOfIndex (cur.get_index cur.blank_cell) cur.rows cur.cols =
              cur.blank_cell := cellOfIndex_as_index _ _ _ hbx
          rw [e1, e2, hdist1]
          omega
      · have hmemc : g.pieces.getD i none ∈ cur.pieces := by
          apply hperm.mem_iff.mpr
          exact List.get?_mem (by rw [List.get?_eq_getElem?]; exact hgival)
        obtain ⟨j, hjlt, hj0⟩ := List.getElem_of_mem hmemc
        have hj : cur.pieces[j]? = some (g.pieces.getD i none) := by
          rw [List.getElem?_eq_getElem hjlt, hj0]
        have hjib : j ≠ cur.get_index cur.blank_cell := by
          intro he
          apply hiAne
          apply hgnd.getElem_inj_iff.mp
          show g.pieces[i] = g.pieces[iA]
          rw [hgA0]
          have hpj : cur.pieces[j]? = some pA := by rw [he]; exact hpA
          rw [hj] at hpj
          rw [getElem_of_getElem? g.pieces _ _ hgival hglti]
          exact Option.some_inj.mp hpj
        have hjim : j ≠ cur.get_index m := by
          intro he
          apply hiBne
          apply hgnd.getElem_inj_iff.mp
          show g.pieces[i] = g.pieces[iB]
          rw [hgB0]
          have hpj : cur.pieces[j]? = some pB := by rw [he]; exact hpB
          rw [hj] at hpj
          rw [getElem_of_getElem? g.pieces _ _ hgival hglti]
          exact Option.some_inj.mp hpj
        refine ⟨cellOfIndex j cur.rows cur.cols, cellOfIndex j cur₁.rows cur₁.cols,
                ?_, ?_, ?_⟩
        · rw [hneedi]
          exact find_piece_eq_of_getElem? cur j _ hcnd hj
        · rw [hneedi]
          exact find_piece_eq_of_getElem? cur₁ j _ hc1nd
            (by rw [hothers j hjib hjim]; exact hj)
        · rw [c1R, c1C, manhattan_self]
          omega
  refine ⟨((List.range (self.states.rows * self.states.cols)).map (fun i =>
      ((cur.find_piece
        (g.get_piece (cellOfIndex i self.states.rows self.states.cols))).map
        (fun pos =>
          (cellOfIndex i self.states.rows self.states.cols).manhattan_distance
            pos)).getD 0)).sum, ?_, ?_⟩
  · apply heuristic_eq_sum
    intro i hir
    obtain ⟨ci, -, hci, -, -⟩ := key i (List.mem_range.mp hir)
    rw [hci]
    rfl
  · have hcur1 : self.heuristic g cur₁ =
        some (((List.range (self.states.rows * self.states.cols)).map (fun i =>
          ((cur₁.find_piece
            (g.get_piece (cellOfIndex i self.states.rows self.states.cols))).map
            (fun pos =>
              (cellOfIndex i self.states.rows self.states.cols).manhattan_distance
                pos)).getD 0)).sum) := by
      apply heuristic_eq_sum
      intro i hir
      obtain ⟨-, ci', -, hci', -⟩ := key i (List.mem_range.mp hir)
      rw [hci']
      rfl
    rw [hh₁] at hcur1
    obtain rfl := Option.some_inj.mp hcur1
    have hpoint : ∀ i ∈ List.range (self.states.rows * self.states.cols),
        ((cur.find_piece
          (g.get_piece (cellOfIndex i self.states.rows self.states.cols))).map
          (fun pos =>
            (cellOfIndex i self.states.rows self.states.cols).manhattan_distance
              pos)).getD 0 ≤
        (fun i =>
          (((cur₁.find_piece
            (g.get_piece (cellOfIndex i self.states.rows self.states.cols))).map
            (fun pos =>
              (cellOfIndex i self.states.rows self.states.cols).manhattan_distance
                pos)).getD 0) +
          ((if i = iA then 1 else 0) + (if i = iB then 1 else 0))) i := by
      intro i hir
      obtain ⟨ci, ci', hci, hci', hd⟩ := key i (List.mem_range.mp hir)
      dsimp only
      rw [hci, hci']
      simp only [Option.map_some', Option.getD_some]
      calc (cellOfIndex i self.states.rows self.states.cols).manhattan_distance ci
          ≤ (cellOfIndex i self.states.rows
              self.states.cols).manhattan_distance ci' +
            Cell.manhattan_distance ci' ci := manhattan_triangle _ _ _
        _ ≤ _ := by omega
    have hsum := sum_le_sum_map _ _ _ hpoint
    rw [sum_map_add_nat, sum_map_add_nat, sum_map_indicator, sum_map_indicator]
      at hsum
    split_ifs at hsum <;> omega

theorem replaySlides_perm :
    ∀ (ms : List Cell) (s t : State), replaySlides s ms = some t →
      t.pieces.Perm s.pieces := by
  intro ms
  induction ms with
  | nil =>
    intro s t h
    obtain rfl : s = t := by simpa [replaySlides] using h
    exact List.Perm.refl _
  | cons mv ms ih =>
    intro s t h
    unfold replaySlides at h
    rw [List.foldlM_cons] at h
    split at h
    · rcases hsw : s.swap s.blank_cell mv with _ | s₁
      · rw [hsw] at h
        exact absurd h (by simp)
      · rw [hsw] at h
        simp only [Option.bind_eq_bind, Option.some_bind] at h
        obtain ⟨-, -, -, -, -, -, hp⟩ := swap_pieces_char s s₁ s.blank_cell mv hsw
        exact (ih s₁ t h).trans hp
    · exact absurd h (by simp)

theorem heuristicBound (self : AStarSolver) (g : State)
    (hgR : g.rows = self.states.rows) (hgC : g.cols = self.states.cols)
    (hgnd : g.pieces.Nodup)
    (hglen : g.pieces.length = self.states.rows * self.states.cols) :
    ∀ (ms : List Cell) (cur : State),
      cur.rows = self.states.rows → cur.cols = self.states.cols →
      StateWF cur → cur.pieces.Perm g.pieces →
      ∀ t, replaySlides cur ms = some t → t.pieces = g.pieces →
      ∃ h, self.heuristic g cur = some h ∧ h ≤ 2 * ms.length := by
  intro ms
  induction ms with
  | nil =>
    intro cur hR hC hwf hperm t hrep ht
    obtain rfl : cur = t := by simpa [replaySlides] using hrep
    have hcg : cur.pieces = g.pieces := ht
    have hcnd : cur.pieces.Nodup := by rw [hcg]; exact hgnd
    refine ⟨0, ?_, by simp⟩
    have h0 : self.heuristic g cur =
        some (((List.range (self.states.rows * self.states.cols)).map
          (fun _ => 0)).sum) := by
      apply heuristic_eq_sum
      intro i hir
      have hi := List.mem_range.mp hir
      have hglti : i < g.pieces.length := by omega
      have hgival : g.pieces[i]? = some (g.pieces.getD i none) := by
        rw [List.getD_eq_getElem _ _ hglti]
        exact List.getElem?_eq_getElem _
      have hneedi : g.get_piece (cellOfIndex i self.states.rows self.states.cols) =
          g.pieces.getD i none := by
        rw [← hgR, ← hgC]
        exact get_piece_cellOfIndex? g i _ hgival
      rw [hneedi]
      rw [find_piece_eq_of_getElem? cur i _ hcnd (by rw [hcg]; exact hgival)]
      rw [Option.map_some']
      rw [hR, hC, manhattan_self]
    rw [h0]
    congr 1
    induction (List.range (self.states.rows * self.states.cols)) with
    | nil => rfl
    | cons a l ihl => simpa using ihl
  | cons mv ms ih =>
    intro cur hR hC hwf hperm t hrep ht
    unfold replaySlides at hrep
    rw [List.foldlM_cons] at hrep
    split at hrep
    · rename_i hmem
      rcases hsw : cur.swap cur.blank_cell mv with _ | cur₁
      · rw [hsw] at hrep
        exact absurd hrep (by simp)
      rw [hsw] at hrep
      simp only [Option.bind_eq_bind, Option.some_bind] at hrep
      obtain ⟨ns, hns, hwf', hrows, hcols, -, -⟩ :=
        swap_blank_neighbor cur mv hwf hmem
      obtain rfl : cur₁ = ns := by
        rw [hsw] at hns
        exact Option.some_inj.mp hns
      obtain ⟨-, -, -, -, -, -, hp1⟩ := swap_pieces_char cur _ cur.blank_cell mv hsw
      obtain ⟨h₁, hh₁, hb₁⟩ := ih _ (by rw [hrows, hR]) (by rw [hcols, hC]) hwf'
        (hp1.trans hperm) t hrep ht
      obtain ⟨h, hh, hle⟩ := heuristic_swap_bound self g cur _ mv hgR hgC hglen
        hgnd hperm hwf hR hC hmem hsw h₁ hh₁
      refine ⟨h, hh, ?_⟩
      simp only [List.length_cons]
      omega
    · exact absurd hrep (by simp)

/-- C2 counterexample: on the 2×2 board, the state `[1, 2, blank, 3]` is one
legal slide away from the solved goal, yet the heuristic values it at 2 — the
sum counts both tile 3's displacement and the blank's displacement — so the
heuristic exceeds the true remaining slide count and is not admissible. -/
theorem claim_C2_counterexample :
    State.new 2 2 = some solved22 ∧
    (AStarSolver.mk oneAway22).heuristic solved22 oneAway22 = some 2 ∧
    replaySlides oneAway22 [Cell.new 1 1] = some solved22 ∧
    ¬ (2 : Nat) ≤ [Cell.new 1 1].length := by
  refine ⟨by decide, by decide, by decide, by decide⟩

/-- C2 as amended: `AStarSolver::heuristic(g, s)` sums, over every cell of
the goal (including the blank's cell), the Manhattan distance between the
cell and the current position of the occupant the goal places there; because
the blank's displacement is included, a single slide changes the value by up
to 2, and the value never exceeds TWICE the number of legal slides in any
sequence transforming `s` into (the arrangement of) `g` — but it can exceed
the slide count itself, so it is not admissible. -/
theorem claim_C2 (s g : State)
    (hsr : g.rows = s.rows) (hsc : g.cols = s.cols)
    (hgnd : g.pieces.Nodup)
    (hglen : g.pieces.length = s.rows * s.cols)
    (hwf : StateWF s)
    (ms : List Cell) (t : State)
    (hrep : replaySlides s ms = some t) (ht : t.pieces = g.pieces) :
    ∃ h, (AStarSolver.mk s).heuristic g s = some h ∧ h ≤ 2 * ms.length := by
  have hperm : s.pieces.Perm g.pieces := by
    have h1 := replaySlides_perm ms s t hrep
    rw [ht] at h1
    exact h1.symm
  exact heuristicBound (AStarSolver.mk s) g hsr hsc hgnd hglen ms s rfl rfl hwf
    hperm t hrep ht

/-- C2 witness: the amended bound at the concrete 2×2 instance — the
heuristic of `[1, 2, blank, 3]` against the solved goal is defined and at
most twice the length of the 1-slide solving sequence. -/
theorem claim_C2_witness :
    ∃ h, (AStarSolver.mk oneAway22).heuristic solved22 oneAway22 = some h ∧
      h ≤ 2 * [Cell.new 1 1].length :=
  claim_C2 oneAway22 solved22 (by decide) (by decide) (by decide) (by decide)
    ⟨by decide, by decide, by decide⟩ [Cell.new 1 1] solved22 (by decide) (by decide)

/-! ### C1: the two search solvers on a concrete reachable scramble -/

/-- C1: on the scrambled 3×3 state `[2,4,3,1,_,5,7,8,6]` — reachable from the
solved state by 6 legal slides — `BFSSolver::solve` returns a 6-move sequence
and `AStarSolver::solve` returns a 10-move sequence; both solve the puzzle
(so 10 is not minimal), refuting the claim that the two solvers return move
sequences of equal, minimal length. The cause: the priority pushed into the
heap is `max_cost - heuristic` with no path-length (g) term, so the solver is
greedy best-first rather than A*. The fuel values 150 and 64 exceed the
number of loop iterations either search performs, so each `some` result is a
genuine return of the Rust loop. -/
theorem claim_C1 :
    State.new 3 3 = some solved33 ∧
    replaySlides solved33 c1ScramblePath = some scramble33 ∧
    c1ScramblePath.length = 6 ∧
    (BFSSolver.mk scramble33).solve 150 = some c1BfsMoves ∧
    (AStarSolver.mk scramble33).solve 64 = some c1AstarMoves ∧
    c1BfsMoves.length = 6 ∧
    c1AstarMoves.length = 10 ∧
    replaySwaps scramble33 c1BfsMoves = some solved33 ∧
    replaySwaps scramble33 c1AstarMoves = some solved33 ∧
    solved33.is_finished = true := by
  refine ⟨by decide, by decide, by decide, by decide, by decide, by decide,
    by decide, by decide, by decide, by decide⟩

/-! ### C4: correctness of the routing BFS `MySolver::find_routes` -/

theorem findRoutesCand_bounds (rows cols : Nat) (current : Cell) (k : Nat)
    (d : Cell) (h : findRoutesCand rows cols current k = some d) :
    d.x < cols ∧ d.y < rows := by
  unfold findRoutesCand at h
  dsimp only at h
  split at h
  · exact absurd h (by simp)
  · rename_i hcond
    obtain rfl : Cell.new _ _ = d := by simpa using h
    simp only [Bool.or_eq_true, decide_eq_true_eq, not_or] at hcond
    simp only [List.getD_eq_getElem?_getD] at hcond
    constructor <;> simp only [Cell.new, List.getD_eq_getElem?_getD] <;> omega

theorem findRoutesCand_dist (rows cols : Nat) (current : Cell) (k : Nat)
    (hk : k < 4) (d : Cell) (h : findRoutesCand rows cols current k = some d) :
    Cell.manhattan_distance current d = 1 := by
  unfold findRoutesCand at h
  dsimp only at h
  interval_cases k <;>
  · first
      | rw [(by decide : ([1, 0, -1, 0] : List Int).getD 0 0 = 1),
            (by decide : ([0, 1, 0, -1] : List Int).getD 0 0 = 0)] at h
      | rw [(by decide : ([1, 0, -1, 0] : List Int).getD 1 0 = 0),
            (by decide : ([0, 1, 0, -1] : List Int).getD 1 0 = 1)] at h
      | rw [(by decide : ([1, 0, -1, 0] : List Int).getD 2 0 = -1),
            (by decide : ([0, 1, 0, -1] : List Int).getD 2 0 = 0)] at h
      | rw [(by decide : ([1, 0, -1, 0] : List Int).getD 3 0 = 0),
            (by decide : ([0, 1, 0, -1] : List Int).getD 3 0 = -1)] at h
    split at h
    · exact absurd h (by simp)
    · rename_i hcond
      obtain rfl : Cell.new _ _ = d := by simpa using h
      simp only [Bool.or_eq_true, decide_eq_true_eq, not_or] at hcond
      unfold Cell.manhattan_distance
      simp only [Cell.new]
      omega

theorem findRoutesCand_complete (rows cols : Nat) (current d : Cell)
    (hadj : Cell.manhattan_distance current d = 1)
    (hx : d.x < cols) (hy : d.y < rows) :
    ∃ k, k < 4 ∧ findRoutesCand rows cols current k = some d := by
  unfold Cell.manhattan_distance at hadj
  have hcase :
      (d.x = current.x + 1 ∧ d.y = current.y) ∨
      (d.x = current.x ∧ d.y = current.y + 1) ∨
      (d.x + 1 = current.x ∧ d.y = current.y) ∨
      (d.x = current.x ∧ d.y + 1 = current.y) := by omega
  rcases hcase with ⟨h1, h2⟩ | ⟨h1, h2⟩ | ⟨h1, h2⟩ | ⟨h1, h2⟩
  · refine ⟨0, by omega, ?_⟩
    unfold findRoutesCand
    dsimp only
    rw [(by decide : ([1, 0, -1, 0] : List Int).getD 0 0 = 1),
        (by decide : ([0, 1, 0, -1] : List Int).getD 0 0 = 0)]
    rw [if_neg (by simp; omega)]
    rcases d with ⟨dx_, dy_⟩
    simp only [Cell.new] at h1 h2 ⊢
    simp only [Option.some_inj, Cell.mk.injEq]
    constructor <;> omega
  · refine ⟨1, by omega, ?_⟩
    unfold findRoutesCand
    dsimp only
    rw [(by decide : ([1, 0, -1, 0] : List Int).getD 1 0 = 0),
        (by decide : ([0, 1, 0, -1] : List Int).getD 1 0 = 1)]
    rw [if_neg (by simp; omega)]
    rcases d with ⟨dx_, dy_⟩
    simp only [Cell.new] at h1 h2 ⊢
    simp only [Option.some_inj, Cell.mk.injEq]
    constructor <;> omega
  · refine ⟨2, by omega, ?_⟩
    unfold findRoutesCand
    dsimp only
    rw [(by decide : ([1, 0, -1, 0] : List Int).getD 2 0 = -1),
        (by decide : ([0, 1, 0, -1] : List Int).getD 2 0 = 0)]
    rw [if_neg (by simp; omega)]
    rcases d with ⟨dx_, dy_⟩
    simp only [Cell.new] at h1 h2 ⊢
    simp only [Option.some_inj, Cell.mk.injEq]
    constructor <;> omega
  · refine ⟨3, by omega, ?_⟩
    unfold findRoutesCand
    dsimp only
    rw [(by decide : ([1, 0, -1, 0] : List Int).getD 3 0 = 0),
        (by decide : ([0, 1, 0, -1] : List Int).getD 3 0 = -1)]
    rw [if_neg (by simp; omega)]
    rcases d with ⟨dx_, dy_⟩
    simp only [Cell.new] at h1 h2 ⊢
    simp only [Option.some_inj, Cell.mk.injEq]
    constructor <;> omega

theorem as_index_inj (rows cols : Nat) (c d : Cell) (hcx : c.x < cols)
    (hdx : d.x < cols) (h : c.as_index rows cols = d.as_index rows cols) :
    c = d := by
  have e1 := cellOfIndex_as_index c rows cols hcx
  have e2 := cellOfIndex_as_index d rows cols hdx
  rw [← e1, ← e2, h]

theorem findRoutesStep_out_sub (rows cols : Nat) (constraints : List Bool)
    (current : Cell) (routes : List Cell)
    (acc : List Bool × List (Cell × List Cell)) (k : Nat) :
    ∀ e ∈ acc.2,
      e ∈ (findRoutesStep rows cols constraints current routes acc k).2 := by
  intro e he
  unfold findRoutesStep
  split
  · exact he
  · dsimp only
    split
    · exact he
    · split
      · exact he
      · exact List.mem_append_left _ he

theorem findRoutesStep_out_char (rows cols : Nat) (constraints : List Bool)
    (current : Cell) (routes : List Cell)
    (acc : List Bool × List (Cell × List Cell)) (k : Nat) :
    ∀ e ∈ (findRoutesStep rows cols constraints current routes acc k).2,
      e ∈ acc.2 ∨ ∃ d, findRoutesCand rows cols current k = some d ∧
        constraints.getD (d.as_index rows cols) false = false ∧
        e = (d, routes ++ [d]) := by
  intro e he
  unfold findRoutesStep at he
  split at he
  · exact Or.inl he
  · rename_i d hd
    dsimp only at he
    split at he
    · exact Or.inl he
    · split at he
      · exact Or.inl he
      · rename_i hfz
        rcases List.mem_append.mp he with h2 | h2
        · exact Or.inl h2
        · exact Or.inr ⟨d, hd, by simpa using hfz, by simpa using h2⟩

theorem findRoutesStep_memo_mono (rows cols : Nat) (constraints : List Bool)
    (current : Cell) (routes : List Cell)
    (acc : List Bool × List (Cell × List Cell)) (k : Nat) (i : Nat)
    (h : acc.1.getD i false = true) :
    (findRoutesStep rows cols constraints current routes acc k).1.getD i false
      = true := by
  unfold findRoutesStep
  split
  · exact h
  · rename_i d hd
    dsimp only
    split
    · exact h
    · have hset : (acc.1.set (d.as_index rows cols) true).getD i false = true := by
        rcases eq_or_ne i (d.as_index rows cols) with heq | hne
        · rw [heq]
          rw [heq] at h
          rcases Nat.lt_or_ge (d.as_index rows cols) acc.1.length with hlt | hge
          · rw [List.getD_eq_getElem?_getD, List.getElem?_set_eq (by simpa using hlt)]
            rfl
          · rw [List.getD_eq_getElem?_getD, List.getElem?_eq_none (by simpa using hge)]
            rw [List.getD_eq_getElem?_getD, List.getElem?_eq_none (by omega)] at h
            exact absurd h (by simp)
        · rw [List.getD_eq_getElem?_getD, List.getElem?_set_ne (fun hh => hne hh.symm)]
          rw [List.getD_eq_getElem?_getD] at h
          exact h
      split
      · exact hset
      · exact hset

theorem findRoutesStep_mark (rows cols : Nat) (constraints : List Bool)
    (current : Cell) (routes : List Cell)
    (acc : List Bool × List (Cell × List Cell)) (k : Nat) (d : Cell)
    (hd : findRoutesCand rows cols current k = some d)
    (hlen : d.as_index rows cols < acc.1.length) :
    (findRoutesStep rows cols constraints current routes acc k).1.getD
      (d.as_index rows cols) false = true := by
  unfold findRoutesStep
  rw [hd]
  dsimp only
  split
  · assumption
  · have hset : (acc.1.set (d.as_index rows cols) true).getD
        (d.as_index rows cols) false = true := by
      rw [List.getD_eq_getElem?_getD, List.getElem?_set_eq (by simpa using hlen)]
      rfl
    split
    · exact hset
    · exact hset

theorem findRoutesStep_newmark (rows cols : Nat) (constraints : List Bool)
    (current : Cell) (routes : List Cell)
    (acc : List Bool × List (Cell × List Cell)) (k : Nat) (i : Nat)
    (h : (findRoutesStep rows cols constraints current routes acc k).1.getD i false
      = true) :
    acc.1.getD i false = true ∨
      ∃ d, findRoutesCand rows cols current k = some d ∧
        i = d.as_index rows cols := by
  unfold findRoutesStep at h
  split at h
  · exact Or.inl h
  · rename_i d hd
    dsimp only at h
    split at h
    · exact Or.inl h
    · rcases eq_or_ne i (d.as_index rows cols) with rfl | hne
      · exact Or.inr ⟨d, hd, rfl⟩
      · left
        have hset : (acc.1.set (d.as_index rows cols) true).getD i false = true := by
          split at h
          · exact h
          · exact h
        rw [List.getD_eq_getElem?_getD,
          List.getElem?_set_ne (fun hh => hne hh.symm)] at hset
        rw [List.getD_eq_getElem?_getD]
        exact hset

theorem findRoutesStep_pushcover (rows cols : Nat) (constraints : List Bool)
    (current : Cell) (routes : List Cell)
    (acc : List Bool × List (Cell × List Cell)) (k : Nat) (d : Cell)
    (hd : findRoutesCand rows cols current k = some d)
    (hfz : constraints.getD (d.as_index rows cols) false = false)
    (hum : acc.1.getD (d.as_index rows cols) false = false) :
    (d, routes ++ [d]) ∈
      (findRoutesStep rows cols constraints current routes acc k).2 := by
  unfold findRoutesStep
  rw [hd]
  dsimp only
  rw [if_neg (by rw [hum]; simp)]
  rw [if_neg (by rw [hfz]; simp)]
  exact List.mem_append_right _ (by simp)

theorem findRoutesStep_length (rows cols : Nat) (constraints : List Bool)
    (current : Cell) (routes : List Cell)
    (acc : List Bool × List (Cell × List Cell)) (k : Nat) :
    (findRoutesStep rows cols constraints current routes acc k).1.length =
      acc.1.length := by
  unfold findRoutesStep
  split
  · rfl
  · dsimp only
    split
    · rfl
    · split
      · simp
      · simp

theorem count_false_set_true : ∀ (l : List Bool) (i : Nat), i < l.length →
    l.getD i false = false → (l.set i true).count false + 1 = l.count false
  | b :: t, 0, _, h => by
    simp only [List.getD_cons_zero] at h
    subst h
    simp [List.count_cons]
  | b :: t, i + 1, hl, h => by
    simp only [List.set_cons_succ, List.count_cons]
    have := count_false_set_true t i (Nat.lt_of_succ_lt_succ (by simpa using hl))
      (by simpa using h)
    omega

theorem findRoutesStep_count (rows cols : Nat) (constraints : List Bool)
    (current : Cell) (routes : List Cell)
    (acc : List Bool × List (Cell × List Cell)) (k : Nat)
    (hlen : acc.1.length = rows * cols) :
    (findRoutesStep rows cols constraints current routes acc k).1.count false +
      (findRoutesStep rows cols constraints current routes acc k).2.length ≤
      acc.1.count false + acc.2.length := by
  unfold findRoutesStep
  split
  · exact Nat.le_refl _
  · rename_i d hd
    dsimp only
    split
    · exact Nat.le_refl _
    · rename_i hm
      have hm' : acc.1.getD (d.as_index rows cols) false = false := by
        simpa using hm
      have hbx := findRoutesCand_bounds rows cols current k d hd
      have hlt : d.as_index rows cols < acc.1.length := by
        rw [hlen]
        exact as_index_lt d rows cols hbx.1 hbx.2
      have hcount := count_false_set_true acc.1 (d.as_index rows cols) hlt hm'
      split
      · simp only []
        omega
      · simp only [List.length_append, List.length_cons, List.length_nil]
        omega

theorem findRoutesFold_out_sub (rows cols : Nat) (constraints : List Bool)
    (current : Cell) (routes : List Cell) :
    ∀ (ks : List Nat) (acc : List Bool × List (Cell × List Cell)),
      ∀ e ∈ acc.2,
        e ∈ (ks.foldl (findRoutesStep rows cols constraints current routes) acc).2
  | [], _, _, he => he
  | k :: ks, acc, e, he => by
    rw [List.foldl_cons]
    exact findRoutesFold_out_sub rows cols constraints current routes ks _ e
      (findRoutesStep_out_sub rows cols constraints current routes acc k e he)

theorem findRoutesFold_memo_mono (rows cols : Nat) (constraints : List Bool)
    (current : Cell) (routes : List Cell) :
    ∀ (ks : List Nat) (acc : List Bool × List (Cell × List Cell)) (i : Nat),
      acc.1.getD i false = true →
      (ks.foldl (findRoutesStep rows cols constraints current routes) acc).1.getD
        i false = true
  | [], _, _, h => h
  | k :: ks, acc, i, h => by
    rw [List.foldl_cons]
    exact findRoutesFold_memo_mono rows cols constraints current routes ks _ i
      (findRoutesStep_memo_mono rows cols constraints current routes acc k i h)

theorem findRoutesFold_length (rows cols : Nat) (constraints : List Bool)
    (current : Cell) (routes : List Cell) :
    ∀ (ks : List Nat) (acc : List Bool × List (Cell × List Cell)),
      (ks.foldl (findRoutesStep rows cols constraints current routes) acc).1.length
        = acc.1.length
  | [], _ => rfl
  | k :: ks, acc => by
    rw [List.foldl_cons]
    rw [findRoutesFold_length rows cols constraints current routes ks _]
    exact findRoutesStep_length rows cols constraints current routes acc k

theorem findRoutesFold_mark (rows cols : Nat) (constraints : List Bool)
    (current : Cell) (routes : List Cell) :
    ∀ (ks : List Nat) (acc : List Bool × List (Cell × List Cell)),
      ∀ k ∈ ks, ∀ d, findRoutesCand rows cols current k = some d →
        d.as_index rows cols < acc.1.length →
        (ks.foldl (findRoutesStep rows cols constraints current routes) acc).1.getD
          (d.as_index rows cols) false = true
  | [], _, _, hk, _, _, _ => absurd hk (List.not_mem_nil _)
  | k0 :: ks, acc, k, hk, d, hd, hlt => by
    rw [List.foldl_cons]
    rcases List.mem_cons.mp hk with rfl | hk'
    · exact findRoutesFold_memo_mono rows cols constraints current routes ks _ _
        (findRoutesStep_mark rows cols constraints current routes acc k d hd hlt)
    · exact findRoutesFold_mark rows cols constraints current routes ks _ k hk' d hd
        (by rw [findRoutesStep_length]; exact hlt)

theorem findRoutesFold_newmark (rows cols : Nat) (constraints : List Bool)
    (current : Cell) (routes : List Cell) :
    ∀ (ks : List Nat) (acc : List Bool × List (Cell × List Cell)) (i : Nat),
      (ks.foldl (findRoutesStep rows cols constraints current routes) acc).1.getD
        i false = true →
      acc.1.getD i false = true ∨
        ∃ k ∈ ks, ∃ d, findRoutesCand rows cols current k = some d ∧
          i = d.as_index rows cols
  | [], _, _, h => Or.inl h
  | k0 :: ks, acc, i, h => by
    rw [List.foldl_cons] at h
    rcases findRoutesFold_newmark rows cols constraints current routes ks _ i h with
      h1 | ⟨k, hk, d, hd, hi⟩
    · rcases findRoutesStep_newmark rows cols constraints current routes acc k0 i h1
        with h2 | ⟨d, hd, hi⟩
      · exact Or.inl h2
      · exact Or.inr ⟨k0, List.mem_cons_self _ _, d, hd, hi⟩
    · exact Or.inr ⟨k, List.mem_cons_of_mem _ hk, d, hd, hi⟩

theorem findRoutesFold_out_char (rows cols : Nat) (constraints : List Bool)
    (current : Cell) (routes : List Cell) :
    ∀ (ks : List Nat) (acc : List Bool × List (Cell × List Cell)) (e : Cell × List Cell),
      e ∈ (ks.foldl (findRoutesStep rows cols constraints current routes) acc).2 →
      e ∈ acc.2 ∨ ∃ k ∈ ks, ∃ d, findRoutesCand rows cols current k = some d ∧
        constraints.getD (d.as_index rows cols) false = false ∧
        e = (d, routes ++ [d])
  | [], _, _, h => Or.inl h
  | k0 :: ks, acc, e, h => by
    rw [List.foldl_cons] at h
    rcases findRoutesFold_out_char rows cols constraints current routes ks _ e h with
      h1 | ⟨k, hk, d, hd, hfz, he⟩
    · rcases findRoutesStep_out_char rows cols constraints current routes acc k0 e h1
        with h2 | ⟨d, hd, hfz, he⟩
      · exact Or.inl h2
      · exact Or.inr ⟨k0, List.mem_cons_self _ _, d, hd, hfz, he⟩
    · exact Or.inr ⟨k, List.mem_cons_of_mem _ hk, d, hd, hfz, he⟩

theorem findRoutesFold_pushcover (rows cols : Nat) (constraints : List Bool)
    (current : Cell) (routes : List Cell) :
    ∀ (ks : List Nat) (acc : List Bool × List (Cell × List Cell)),
      ∀ k ∈ ks, ∀ d, findRoutesCand rows cols current k = some d →
        constraints.getD (d.as_index rows cols) false = false →
        d.as_index rows cols < acc.1.length →
        (d, routes ++ [d]) ∈
          (ks.foldl (findRoutesStep rows cols constraints current routes) acc).2 ∨
        acc.1.getD (d.as_index rows cols) false = true
  | [], _, _, hk, _, _, _, _ => absurd hk (List.not_mem_nil _)
  | k0 :: ks, acc, k, hk, d, hd, hfz, hlt => by
    rw [List.foldl_cons]
    rcases List.mem_cons.mp hk with rfl | hk'
    · by_cases hm : acc.1.getD (d.as_index rows cols) false = true
      · exact Or.inr hm
      · left
        exact findRoutesFold_out_sub rows cols constraints current routes ks _ _
          (findRoutesStep_pushcover rows cols constraints current routes acc k d hd
            hfz (by simpa using hm))
    · rcases findRoutesFold_pushcover rows cols constraints current routes ks
        (findRoutesStep rows cols constraints current routes acc k0) k hk'
        d hd hfz (by rw [findRoutesStep_length]; exact hlt) with h1 | h1
      · exact Or.inl h1
      · rcases findRoutesStep_newmark rows cols constraints current routes acc k0 _ h1
          with h2 | ⟨d0, hd0, hi⟩
        · exact Or.inr h2
        · have hbd := findRoutesCand_bounds rows cols current k d hd
          have hbd0 := findRoutesCand_bounds rows cols current k0 d0 hd0
          have hdd : d = d0 := as_index_inj rows cols d d0 hbd.1 hbd0.1 hi
          subst hdd
          by_cases hm : acc.1.getD (d.as_index rows cols) false = true
          · exact Or.inr hm
          · left
            exact findRoutesFold_out_sub rows cols constraints current routes ks _ _
              (findRoutesStep_pushcover rows cols constraints current routes acc k0 d
                hd0 hfz (by simpa using hm))

theorem findRoutesFold_count (rows cols : Nat) (constraints : List Bool)
    (current : Cell) (routes : List Cell) :
    ∀ (ks : List Nat) (acc : List Bool × List (Cell × List Cell)),
      acc.1.length = rows * cols →
      (ks.foldl (findRoutesStep rows cols constraints current routes) acc).1.count
          false +
        (ks.foldl (findRoutesStep rows cols constraints current routes) acc).2.length
        ≤ acc.1.count false + acc.2.length
  | [], _, _ => Nat.le_refl _
  | k0 :: ks, acc, hlen => by
    rw [List.foldl_cons]
    have h1 := findRoutesFold_count rows cols constraints current routes ks
      (findRoutesStep rows cols constraints current routes acc k0)
      (by rw [findRoutesStep_length]; exact hlen)
    have h2 := findRoutesStep_count rows cols constraints current routes acc k0 hlen
    omega

theorem getD_irrel {α : Type} (l : List α) (i : Nat) (a b : α)
    (h : i < l.length) : l.getD i a = l.getD i b := by
  rw [List.getD_eq_getElem l a h, List.getD_eq_getElem l b h]

theorem getD_replicate_false (n i : Nat) :
    (List.replicate n false).getD i false = false := by
  rw [List.getD_eq_getElem?_getD]
  rcases Nat.lt_or_ge i n with h | h
  · rw [List.getElem?_replicate]
    simp [h]
  · rw [List.getElem?_eq_none (by simpa using h)]
    rfl

theorem manhattan_eq_zero (a b : Cell) (h : Cell.manhattan_distance a b = 0) :
    a = b := by
  unfold Cell.manhattan_distance at h
  obtain ⟨ax, ay⟩ := a
  obtain ⟨bx, by2⟩ := b
  dsimp only at h
  simp only [Cell.mk.injEq]
  omega

theorem validFromB_snoc (rows cols : Nat) (K : List Bool) (d : Cell) :
    ∀ (p : List Cell) (c e : Cell),
      validFromB rows cols K c p e = true →
      Cell.manhattan_distance e d = 1 → d.x < cols → d.y < rows →
      K.getD (d.as_index rows cols) false = false →
      validFromB rows cols K c (p ++ [d]) d = true
  | [], c, e, h, h1, h2, h3, h4 => by
    simp only [validFromB, decide_eq_true_eq] at h
    subst h
    simp only [List.nil_append, validFromB, Bool.and_eq_true]
    refine ⟨⟨⟨⟨by simp [h1], by simp [h2]⟩, by simp [h3]⟩, by rw [h4]; rfl⟩, ?_⟩
    simp [validFromB]
  | a :: p, c, e, h, h1, h2, h3, h4 => by
    simp only [validFromB, Bool.and_eq_true] at h
    obtain ⟨⟨⟨⟨ha, hb⟩, hc⟩, hd2⟩, h5⟩ := h
    simp only [List.cons_append, validFromB, Bool.and_eq_true]
    exact ⟨⟨⟨⟨ha, hb⟩, hc⟩, hd2⟩,
      validFromB_snoc rows cols K d p a e h5 h1 h2 h3 h4⟩

theorem validFromB_mem (rows cols : Nat) (K : List Bool) :
    ∀ (p : List Cell) (c e : Cell),
      validFromB rows cols K c p e = true →
      ∀ d ∈ p, d.x < cols ∧ d.y < rows ∧
        K.getD (d.as_index rows cols) false = false
  | [], _, _, _, _, hd => absurd hd (List.not_mem_nil _)
  | a :: p, c, e, h, d, hd => by
    simp only [validFromB, Bool.and_eq_true, decide_eq_true_eq,
      Bool.not_eq_true', beq_iff_eq] at h
    obtain ⟨⟨⟨⟨_, hb⟩, hc⟩, hK⟩, h5⟩ := h
    rcases List.mem_cons.mp hd with rfl | hd'
    · exact ⟨hb, hc, hK⟩
    · exact validFromB_mem rows cols K p a e h5 d hd'

theorem validFromB_adj (rows cols : Nat) (K : List Bool) :
    ∀ (p : List Cell) (c e : Cell), validFromB rows cols K c p e = true →
      ∀ i, i < p.length →
        Cell.manhattan_distance ((c :: p).getD i c) (p.getD i c) = 1
  | [], _, _, _, i, hi => absurd hi (by simp)
  | a :: p, c, e, h, i, hi => by
    simp only [validFromB, Bool.and_eq_true, decide_eq_true_eq, beq_iff_eq] at h
    obtain ⟨⟨⟨⟨ha, _⟩, _⟩, _⟩, h5⟩ := h
    match i with
    | 0 => simpa using ha
    | i + 1 =>
      have hi' : i < p.length := by simpa using hi
      have hrec := validFromB_adj rows cols K p a e h5 i hi'
      rw [List.getD_cons_succ, List.getD_cons_succ]
      rw [getD_irrel (a :: p) i c a (by simp only [List.length_cons]; omega),
        getD_irrel p i c a hi']
      exact hrec

theorem validFromB_last (rows cols : Nat) (K : List Bool) :
    ∀ (p : List Cell) (c e : Cell), validFromB rows cols K c p e = true →
      (c :: p).getD p.length c = e
  | [], c, e, h => by simpa [validFromB] using h
  | a :: p, c, e, h => by
    simp only [validFromB, Bool.and_eq_true] at h
    have hrec := validFromB_last rows cols K p a e h.2
    rw [List.length_cons, List.getD_cons_succ]
    rw [getD_irrel (a :: p) p.length c a (by simp)]
    exact hrec

theorem validFromB_manhattan_le (rows cols : Nat) (K : List Bool) :
    ∀ (p : List Cell) (c e : Cell), validFromB rows cols K c p e = true →
      Cell.manhattan_distance c e ≤ p.length
  | [], c, e, h => by
    simp only [validFromB, decide_eq_true_eq] at h
    subst h
    simp [manhattan_self]
  | a :: p, c, e, h => by
    simp only [validFromB, Bool.and_eq_true, beq_iff_eq] at h
    obtain ⟨⟨⟨⟨ha, _⟩, _⟩, _⟩, h5⟩ := h
    have h1 := validFromB_manhattan_le rows cols K p a e h5
    have h2 := manhattan_triangle c e a
    rw [List.length_cons]
    omega

theorem expand_length (rows cols : Nat) (K : List Bool) (cur : Cell)
    (rt : List Cell) (memo : List Bool) :
    (findRoutesExpand rows cols K cur rt memo).1.length = memo.length :=
  findRoutesFold_length rows cols K cur rt (List.range 4) (memo, [])

theorem expand_out_char (rows cols : Nat) (K : List Bool) (cur : Cell)
    (rt : List Cell) (memo : List Bool) (e : Cell × List Cell)
    (h : e ∈ (findRoutesExpand rows cols K cur rt memo).2) :
    ∃ k, k < 4 ∧ ∃ d, findRoutesCand rows cols cur k = some d ∧
      K.getD (d.as_index rows cols) false = false ∧ e = (d, rt ++ [d]) := by
  rcases findRoutesFold_out_char rows cols K cur rt (List.range 4) (memo, []) e h
    with h0 | ⟨k, hk, d, hd, hfz, he⟩
  · exact absurd h0 (List.not_mem_nil _)
  · exact ⟨k, List.mem_range.mp hk, d, hd, hfz, he⟩

theorem expand_newmark (rows cols : Nat) (K : List Bool) (cur : Cell)
    (rt : List Cell) (memo : List Bool) (i : Nat)
    (h : (findRoutesExpand rows cols K cur rt memo).1.getD i false = true) :
    memo.getD i false = true ∨
      ∃ k, k < 4 ∧ ∃ d, findRoutesCand rows cols cur k = some d ∧
        i = d.as_index rows cols := by
  rcases findRoutesFold_newmark rows cols K cur rt (List.range 4) (memo, []) i h
    with h0 | ⟨k, hk, d, hd, hi⟩
  · exact Or.inl h0
  · exact Or.inr ⟨k, List.mem_range.mp hk, d, hd, hi⟩

theorem expand_mark (rows cols : Nat) (K : List Bool) (cur : Cell)
    (rt : List Cell) (memo : List Bool) (k : Nat) (hk : k < 4) (d : Cell)
    (hd : findRoutesCand rows cols cur k = some d)
    (hlt : d.as_index rows cols < memo.length) :
    (findRoutesExpand rows cols K cur rt memo).1.getD
      (d.as_index rows cols) false = true :=
  findRoutesFold_mark rows cols K cur rt (List.range 4) (memo, []) k
    (List.mem_range.mpr hk) d hd hlt

theorem expand_pushcover (rows cols : Nat) (K : List Bool) (cur : Cell)
    (rt : List Cell) (memo : List Bool) (k : Nat) (hk : k < 4) (d : Cell)
    (hd : findRoutesCand rows cols cur k = some d)
    (hfz : K.getD (d.as_index rows cols) false = false)
    (hlt : d.as_index rows cols < memo.length) :
    (d, rt ++ [d]) ∈ (findRoutesExpand rows cols K cur rt memo).2 ∨
      memo.getD (d.as_index rows cols) false = true :=
  findRoutesFold_pushcover rows cols K cur rt (List.range 4) (memo, []) k
    (List.mem_range.mpr hk) d hd hfz hlt

theorem expand_count (rows cols : Nat) (K : List Bool) (cur : Cell)
    (rt : List Cell) (memo : List Bool) (hlen : memo.length = rows * cols) :
    (findRoutesExpand rows cols K cur rt memo).1.count false +
      (findRoutesExpand rows cols K cur rt memo).2.length ≤
      memo.count false := by
  have h := findRoutesFold_count rows cols K cur rt (List.range 4) (memo, []) hlen
  simpa using h

theorem pairwise_of_all {α : Type} (R : α → α → Prop) :
    ∀ (l : List α), (∀ a ∈ l, ∀ b ∈ l, R a b) → l.Pairwise R
  | [], _ => List.Pairwise.nil
  | a :: l, h =>
    List.Pairwise.cons
      (fun b hb => h a (List.mem_cons_self _ _) b (List.mem_cons_of_mem _ hb))
      (pairwise_of_all R l fun x hx y hy =>
        h x (List.mem_cons_of_mem _ hx) y (List.mem_cons_of_mem _ hy))

theorem frQShape_head_min (e0 : Cell × List Cell) (rest : List (Cell × List Cell))
    (hq : frQShape (e0 :: rest)) :
    ∀ e ∈ e0 :: rest, e0.2.length ≤ e.2.length := by
  intro e he
  rcases List.mem_cons.mp he with rfl | he'
  · exact Nat.le_refl _
  · exact ((List.pairwise_cons.mp hq).1 e he').1

theorem frQShape_step (e0 : Cell × List Cell) (rest P : List (Cell × List Cell))
    (hq : frQShape (e0 :: rest))
    (hP : ∀ e ∈ P, e.2.length = e0.2.length + 1) :
    frQShape (rest ++ P) := by
  unfold frQShape at hq ⊢
  rw [List.pairwise_append]
  refine ⟨(List.pairwise_cons.mp hq).2, ?_, ?_⟩
  · refine pairwise_of_all _ P fun a ha b hb => ?_
    rw [hP a ha, hP b hb]
    omega
  · intro a ha b hb
    have h1 := (List.pairwise_cons.mp hq).1 a ha
    rw [hP b hb]
    omega

theorem exists_greatest (P : Nat → Prop) [DecidablePred P] :
    ∀ (n : Nat), (∃ i, i ≤ n ∧ P i) →
      ∃ i, i ≤ n ∧ P i ∧ ∀ j, i < j → j ≤ n → ¬P j
  | 0, ⟨i, hi, hP⟩ => by
    refine ⟨0, Nat.le_refl _, ?_, ?_⟩
    · rwa [Nat.le_zero.mp hi] at hP
    · intro j hj hjn
      omega
  | n + 1, ⟨i, hi, hP⟩ => by
    by_cases htop : P (n + 1)
    · refine ⟨n + 1, Nat.le_refl _, htop, ?_⟩
      intro j hj hjn
      omega
    · rcases Nat.lt_or_ge i (n + 1) with hlt | hge
      · obtain ⟨i0, hi0, hPi0, hmax⟩ :=
          exists_greatest P n ⟨i, by omega, hP⟩
        refine ⟨i0, by omega, hPi0, ?_⟩
        intro j hj hjn
        rcases Nat.lt_or_ge j (n + 1) with hj1 | hj1
        · exact hmax j hj (by omega)
        · have : j = n + 1 := by omega
          rw [this]
          exact htop
      · have : i = n + 1 := by omega
        rw [this] at hP
        exact absurd hP htop

theorem frInv_step (rows cols : Nat) (constraints : List Bool)
    (start endCell current : Cell) (routes : List Cell)
    (rest : List (Cell × List Cell)) (memo : List Bool)
    (hinv : frInv rows cols constraints start endCell
      ((current, routes) :: rest) memo)
    (hne : current ≠ endCell) :
    frInv rows cols constraints start endCell
      (rest ++ (findRoutesExpand rows cols constraints current routes memo).2)
      (findRoutesExpand rows cols constraints current routes memo).1 := by
  obtain ⟨hlen, hval, hshape, hcut⟩ := hinv
  refine ⟨?_, ?_, ?_, ?_⟩
  · rw [expand_length]
    exact hlen
  · intro e he
    rcases List.mem_append.mp he with h1 | h1
    · exact hval e (List.mem_cons_of_mem _ h1)
    · obtain ⟨k, hk4, d, hd, hfz, he'⟩ :=
        expand_out_char rows cols constraints current routes memo e h1
      subst he'
      have hb := findRoutesCand_bounds rows cols current k d hd
      have hdist := findRoutesCand_dist rows cols current k hk4 d hd
      have hhead := hval (current, routes) (List.mem_cons_self _ _)
      exact validFromB_snoc rows cols constraints d routes start current hhead
        hdist hb.1 hb.2 hfz
  · refine frQShape_step (current, routes) rest _ hshape ?_
    intro e he
    obtain ⟨k, _, d, _, _, he'⟩ :=
      expand_out_char rows cols constraints current routes memo e he
    subst he'
    simp
  · intro p hp
    obtain ⟨j, hj, r, hmem, hr, hsuf⟩ := hcut p hp
    have hL : routes.length ≤ j :=
      Nat.le_trans (frQShape_head_min (current, routes) rest hshape _ hmem) hr
    by_cases hex : ∃ i, i ≤ p.length ∧ (j < i ∧
        (findRoutesExpand rows cols constraints current routes memo).1.getD
          (((start :: p).getD i start).as_index rows cols) false = true)
    · obtain ⟨i0, hi0le, ⟨hji0, hmark⟩, hmax⟩ :=
        exists_greatest _ p.length hex
      have hold : memo.getD
          (((start :: p).getD i0 start).as_index rows cols) false = false :=
        hsuf i0 hji0 hi0le
      obtain ⟨i0', rfl⟩ : ∃ i', i0 = i' + 1 := ⟨i0 - 1, by omega⟩
      rw [List.getD_cons_succ] at hmark hold
      have hi0lt : i0' < p.length := by omega
      have hmemp : p.getD i0' start ∈ p := by
        rw [List.getD_eq_getElem p start hi0lt]
        exact List.getElem_mem hi0lt
      obtain ⟨hbx, hby, hbfz⟩ :=
        validFromB_mem rows cols constraints p start endCell hp _ hmemp
      rcases expand_newmark rows cols constraints current routes memo _ hmark
        with hcontra | ⟨k, hk4, d, hcand, hidx⟩
      · rw [hcontra] at hold
        exact absurd hold (by simp)
      · have hdb := findRoutesCand_bounds rows cols current k d hcand
        have hdd : p.getD i0' start = d :=
          as_index_inj rows cols _ d hbx hdb.1 hidx
        rw [hdd] at hold hbfz
        have hidxlt : d.as_index rows cols < memo.length := by
          rw [hlen]
          exact as_index_lt d rows cols hdb.1 hdb.2
        rcases expand_pushcover rows cols constraints current routes memo k hk4 d
          hcand hbfz hidxlt with hin | hmarked
        · refine ⟨i0' + 1, by omega, routes ++ [d], ?_, ?_, ?_⟩
          · rw [List.getD_cons_succ, hdd]
            exact List.mem_append_right _ hin
          · simp only [List.length_append, List.length_cons, List.length_nil]
            omega
          · intro i hi hile
            have hnp := hmax i hi hile
            by_contra hcon
            exact hnp ⟨by omega, by
              rcases Bool.eq_false_or_eq_true ((findRoutesExpand rows cols
                constraints current routes memo).1.getD
                (((start :: p).getD i start).as_index rows cols) false) with
                hb2 | hb2
              · exact hb2
              · exact absurd hb2 hcon⟩
        · rw [hmarked] at hold
          exact absurd hold (by simp)
    · push_neg at hex
      rcases List.mem_cons.mp hmem with heq | hrest
      · exfalso
        have hcur : (start :: p).getD j start = current := congrArg Prod.fst heq
        have hjlt : j < p.length := by
          rcases Nat.lt_or_eq_of_le hj with h1 | h1
          · exact h1
          · exfalso
            have hlast := validFromB_last rows cols constraints p start endCell hp
            rw [h1, hlast] at hcur
            exact hne hcur.symm
        have hadj := validFromB_adj rows cols constraints p start endCell hp j hjlt
        rw [hcur] at hadj
        have hmemp : p.getD j start ∈ p := by
          rw [List.getD_eq_getElem p start hjlt]
          exact List.getElem_mem hjlt
        obtain ⟨hbx, hby, _⟩ :=
          validFromB_mem rows cols constraints p start endCell hp _ hmemp
        obtain ⟨k, hk4, hcand⟩ :=
          findRoutesCand_complete rows cols current (p.getD j start) hadj hbx hby
        have hidxlt : (p.getD j start).as_index rows cols < memo.length := by
          rw [hlen]
          exact as_index_lt _ rows cols hbx hby
        have hmark := expand_mark rows cols constraints current routes memo k hk4
          _ hcand hidxlt
        refine hex (j + 1) (by omega) (by omega) ?_
        rw [List.getD_cons_succ]
        exact hmark
      · refine ⟨j, hj, r, List.mem_append_left _ hrest, hr, ?_⟩
        intro i hi hile
        have hni := hex i hile hi
        rcases Bool.eq_false_or_eq_true ((findRoutesExpand rows cols constraints
            current routes memo).1.getD
            (((start :: p).getD i start).as_index rows cols) false) with hb2 | hb2
        · exact absurd hb2 hni
        · exact hb2

theorem findRoutesLoop_master (rows cols : Nat) (endCell : Cell)
    (constraints : List Bool) (start : Cell) :
    ∀ (fuel : Nat) (q : List (Cell × List Cell)) (memo : List Bool),
      frInv rows cols constraints start endCell q memo →
      ∀ res, findRoutesLoop rows cols endCell constraints fuel q memo = some res →
        (validFromB rows cols constraints start res endCell = true ∧
          ∀ p, validFromB rows cols constraints start p endCell = true →
            res.length ≤ p.length) ∨
        (res = [] ∧
          ∀ p, validFromB rows cols constraints start p endCell = true → False)
  | 0, q, memo, _, res, hres => by simp [findRoutesLoop] at hres
  | fuel + 1, [], memo, hinv, res, hres => by
    simp only [findRoutesLoop, Option.some.injEq] at hres
    subst hres
    refine Or.inr ⟨rfl, fun p hp => ?_⟩
    obtain ⟨j, _, r, hmem, _, _⟩ := hinv.2.2.2 p hp
    exact absurd hmem (List.not_mem_nil _)
  | fuel + 1, (current, routes) :: rest, memo, hinv, res, hres => by
    rw [findRoutesLoop] at hres
    split at hres
    · rename_i heq
      simp only [Option.some.injEq] at hres
      subst hres
      left
      constructor
      · have hv := hinv.2.1 (current, routes) (List.mem_cons_self _ _)
        rwa [heq] at hv
      · intro p hp
        obtain ⟨j, hj, r, hmem, hr, _⟩ := hinv.2.2.2 p hp
        have h1 := frQShape_head_min (current, routes) rest hinv.2.2.1 _ hmem
        simp only [] at h1
        omega
    · rename_i hne
      dsimp only at hres
      exact findRoutesLoop_master rows cols endCell constraints start fuel _ _
        (frInv_step rows cols constraints start endCell current routes rest memo
          hinv hne) res hres

theorem findRoutesLoop_total (rows cols : Nat) (endCell : Cell)
    (constraints : List Bool) :
    ∀ (fuel : Nat) (q : List (Cell × List Cell)) (memo : List Bool),
      memo.length = rows * cols →
      q.length + 2 * memo.count false < fuel →
      (findRoutesLoop rows cols endCell constraints fuel q memo).isSome = true
  | 0, _, _, _, hf => by omega
  | fuel + 1, [], memo, _, _ => by simp [findRoutesLoop]
  | fuel + 1, (current, routes) :: rest, memo, hlen, hf => by
    rw [findRoutesLoop]
    split
    · rfl
    · dsimp only
      apply findRoutesLoop_total rows cols endCell constraints fuel
      · rw [expand_length]
        exact hlen
      · have hc := expand_count rows cols constraints current routes memo hlen
        have hla : (rest ++
            (findRoutesExpand rows cols constraints current routes memo).2).length =
            rest.length +
            (findRoutesExpand rows cols constraints current routes memo).2.length :=
          List.length_append _ _
        simp only [List.length_cons] at hf
        omega

theorem validFromB_cons (rows cols : Nat) (K : List Bool) (c c2 e : Cell)
    (rest : List Cell) (h1 : Cell.manhattan_distance c c2 = 1)
    (hx : c2.x < cols) (hy : c2.y < rows)
    (hfz : K.getD (c2.as_index rows cols) false = false)
    (hv : validFromB rows cols K c2 rest e = true) :
    validFromB rows cols K c (c2 :: rest) e = true := by
  simp only [validFromB, Bool.and_eq_true]
  refine ⟨⟨⟨⟨by simp [h1], by simp [hx]⟩, by simp [hy]⟩, ?_⟩, hv⟩
  rw [hfz]
  rfl

theorem stairPath_spec (rows cols : Nat) (K : List Bool)
    (hall : ∀ i, K.getD i false = false) :
    ∀ (fuel : Nat) (c e : Cell), Cell.manhattan_distance c e ≤ fuel →
      c.x < cols → c.y < rows → e.x < cols → e.y < rows →
      validFromB rows cols K c (stairPath fuel c e) e = true ∧
      (stairPath fuel c e).length = Cell.manhattan_distance c e
  | 0, c, e, hm, _, _, _, _ => by
    have h0 : Cell.manhattan_distance c e = 0 := Nat.le_zero.mp hm
    have hce := manhattan_eq_zero c e h0
    subst hce
    exact ⟨by simp [stairPath, validFromB], by simp [stairPath, h0]⟩
  | fuel + 1, c, e, hm, hcx, hcy, hex2, hey => by
    have hmx : Cell.manhattan_distance c e =
        ((c.x : Int) - e.x).natAbs + ((c.y : Int) - e.y).natAbs := rfl
    rw [stairPath]
    by_cases h1 : c.x < e.x
    · rw [if_pos h1]
      have hrec := stairPath_spec rows cols K hall fuel (Cell.new (c.x + 1) c.y) e
        (by rw [hmx] at hm; show (((c.x + 1 : Nat) : Int) - (e.x : Int)).natAbs +
            (((c.y : Nat) : Int) - e.y).natAbs ≤ fuel; omega)
        (show c.x + 1 < cols by omega) (show c.y < rows from hcy) hex2 hey
      refine ⟨validFromB_cons rows cols K c _ e _ ?_ ?_ ?_ (hall _) hrec.1, ?_⟩
      · show (((c.x : Nat) : Int) - (c.x + 1 : Nat)).natAbs +
          (((c.y : Nat) : Int) - (c.y : Nat)).natAbs = 1
        omega
      · show c.x + 1 < cols
        omega
      · exact hcy
      · rw [List.length_cons, hrec.2, hmx]
        have hmx2 : (Cell.new (c.x + 1) c.y).manhattan_distance e =
            (((c.x + 1 : Nat) : Int) - (e.x : Int)).natAbs +
              (((c.y : Nat) : Int) - (e.y : Int)).natAbs := rfl
        rw [hmx2]
        omega
    · rw [if_neg h1]
      by_cases h2 : e.x < c.x
      · rw [if_pos h2]
        have hrec := stairPath_spec rows cols K hall fuel
          (Cell.new (c.x - 1) c.y) e
          (by rw [hmx] at hm; show (((c.x - 1 : Nat) : Int) - (e.x : Int)).natAbs +
              (((c.y : Nat) : Int) - e.y).natAbs ≤ fuel; omega)
          (show c.x - 1 < cols by omega) (show c.y < rows from hcy) hex2 hey
        refine ⟨validFromB_cons rows cols K c _ e _ ?_ ?_ ?_ (hall _) hrec.1, ?_⟩
        · show (((c.x : Nat) : Int) - (c.x - 1 : Nat)).natAbs +
            (((c.y : Nat) : Int) - (c.y : Nat)).natAbs = 1
          omega
        · show c.x - 1 < cols
          omega
        · exact hcy
        · rw [List.length_cons, hrec.2, hmx]
          have hmx2 : (Cell.new (c.x - 1) c.y).manhattan_distance e =
              (((c.x - 1 : Nat) : Int) - (e.x : Int)).natAbs +
                (((c.y : Nat) : Int) - (e.y : Int)).natAbs := rfl
          rw [hmx2]
          omega
      · rw [if_neg h2]
        have hxeq : c.x = e.x := by omega
        by_cases h3 : c.y < e.y
        · rw [if_pos h3]
          have hrec := stairPath_spec rows cols K hall fuel
            (Cell.new c.x (c.y + 1)) e
            (by rw [hmx] at hm; show (((c.x : Nat) : Int) - (e.x : Int)).natAbs +
                (((c.y + 1 : Nat) : Int) - e.y).natAbs ≤ fuel; omega)
            (show c.x < cols from hcx) (show c.y + 1 < rows by omega) hex2 hey
          refine ⟨validFromB_cons rows cols K c _ e _ ?_ ?_ ?_ (hall _) hrec.1, ?_⟩
          · show (((c.x : Nat) : Int) - (c.x : Nat)).natAbs +
              (((c.y : Nat) : Int) - (c.y + 1 : Nat)).natAbs = 1
            omega
          · exact hcx
          · show c.y + 1 < rows
            omega
          · rw [List.length_cons, hrec.2, hmx]
            have hmx2 : (Cell.new c.x (c.y + 1)).manhattan_distance e =
                (((c.x : Nat) : Int) - (e.x : Int)).natAbs +
                  (((c.y + 1 : Nat) : Int) - (e.y : Int)).natAbs := rfl
            rw [hmx2]
            omega
        · rw [if_neg h3]
          by_cases h4 : e.y < c.y
          · rw [if_pos h4]
            have hrec := stairPath_spec rows cols K hall fuel
              (Cell.new c.x (c.y - 1)) e
              (by rw [hmx] at hm; show (((c.x : Nat) : Int) - (e.x : Int)).natAbs +
                  (((c.y - 1 : Nat) : Int) - e.y).natAbs ≤ fuel; omega)
              (show c.x < cols from hcx) (show c.y - 1 < rows by omega) hex2 hey
            refine ⟨validFromB_cons rows cols K c _ e _ ?_ ?_ ?_ (hall _)
              hrec.1, ?_⟩
            · show (((c.x : Nat) : Int) - (c.x : Nat)).natAbs +
                (((c.y : Nat) : Int) - (c.y - 1 : Nat)).natAbs = 1
              omega
            · exact hcx
            · show c.y - 1 < rows
              omega
            · rw [List.length_cons, hrec.2, hmx]
              have hmx2 : (Cell.new c.x (c.y - 1)).manhattan_distance e =
                  (((c.x : Nat) : Int) - (e.x : Int)).natAbs +
                    (((c.y - 1 : Nat) : Int) - (e.y : Int)).natAbs := rfl
              rw [hmx2]
              omega
          · rw [if_neg h4]
            have hce : c = e := by
              apply manhattan_eq_zero
              rw [hmx]
              omega
            subst hce
            exact ⟨by simp [validFromB],
              by rw [hmx]; simp only [stairPath, List.length_nil]; omega⟩

theorem frInv_init (rows cols : Nat) (constraints : List Bool)
    (start endCell : Cell) (hclen : constraints.length = rows * cols) :
    frInv rows cols constraints start endCell [(start, [])]
      (List.replicate constraints.length false) := by
  refine ⟨by simp [hclen], ?_, ?_, ?_⟩
  · intro e he
    rcases List.mem_cons.mp he with rfl | h
    · simp [validFromB]
    · exact absurd h (List.not_mem_nil _)
  · exact List.pairwise_singleton _ _
  · intro p hp
    refine ⟨0, Nat.zero_le _, [], ?_, Nat.le_refl _, ?_⟩
    · simp
    · intro i _ _
      exact getD_replicate_false _ _

/-- **C4**: `MySolver::find_routes(start, end, constraints)` is a correct
shortest-path BFS on the 4-connected grid with the frozen mask excluded: it
always returns; the result is a valid path (adjacent steps through in-bounds,
unfrozen cells, ending at `end`) whenever any valid path exists, it is empty
when none exists, it is minimal in length among all valid paths, and on an
open grid with in-bounds endpoints its length equals the Manhattan distance
between `start` and `end`. -/
theorem claim_C4 (self : MySolver) (start endCell : Cell)
    (constraints : List Bool)
    (hclen : constraints.length = self.states.rows * self.states.cols) :
    ∃ res, MySolver.find_routes self start endCell constraints = some res ∧
      (validFromB self.states.rows self.states.cols constraints start res
          endCell = true ∨
        (res = [] ∧ ∀ p, validFromB self.states.rows self.states.cols
          constraints start p endCell = true → False)) ∧
      (∀ p, validFromB self.states.rows self.states.cols constraints start p
        endCell = true → res.length ≤ p.length) ∧
      ((∀ i, constraints.getD i false = false) →
        start.x < self.states.cols → start.y < self.states.rows →
        endCell.x < self.states.cols → endCell.y < self.states.rows →
        res.length = Cell.manhattan_distance start endCell) := by
  have hcount : (List.replicate constraints.length false).count false =
      constraints.length := by
    simp [List.count_replicate]
  have htot := findRoutesLoop_total self.states.rows self.states.cols endCell
    constraints (findRoutesFuel constraints) [(start, [])]
    (List.replicate constraints.length false)
    (by simp [hclen])
    (by
      simp only [List.length_cons, List.length_nil, hcount, findRoutesFuel]
      omega)
  rw [MySolver.find_routes]
  obtain ⟨res, hres⟩ := Option.isSome_iff_exists.mp htot
  have hmaster := findRoutesLoop_master self.states.rows self.states.cols endCell
    constraints start (findRoutesFuel constraints) [(start, [])]
    (List.replicate constraints.length false)
    (frInv_init self.states.rows self.states.cols constraints start endCell
      hclen) res hres
  refine ⟨res, hres, ?_, ?_, ?_⟩
  · rcases hmaster with ⟨hv, _⟩ | ⟨hnil, hno⟩
    · exact Or.inl hv
    · exact Or.inr ⟨hnil, hno⟩
  · rcases hmaster with ⟨_, hmin⟩ | ⟨hnil, hno⟩
    · exact hmin
    · intro p hp
      exact absurd hp (fun h => hno p h)
  · intro hall hsx hsy hex2 hey
    obtain ⟨hsv, hsl⟩ := stairPath_spec self.states.rows self.states.cols
      constraints hall (Cell.manhattan_distance start endCell) start endCell
      (Nat.le_refl _) hsx hsy hex2 hey
    rcases hmaster with ⟨hv, hmin⟩ | ⟨_, hno⟩
    · have h1 := hmin _ hsv
      have h2 := validFromB_manhattan_le self.states.rows self.states.cols
        constraints res start endCell hv
      omega
    · exact absurd hsv (fun h => hno _ h)

theorem claim_C4_witness :
    (List.replicate 9 false : List Bool).length = 3 * 3 ∧
    (∃ res, MySolver.find_routes (MySolver.mk solved33) (Cell.new 0 0)
        (Cell.new 2 2) (List.replicate 9 false) = some res ∧
      (validFromB 3 3 (List.replicate 9 false) (Cell.new 0 0) res
          (Cell.new 2 2) = true ∨
        (res = [] ∧ ∀ p, validFromB 3 3 (List.replicate 9 false) (Cell.new 0 0)
          p (Cell.new 2 2) = true → False)) ∧
      (∀ p, validFromB 3 3 (List.replicate 9 false) (Cell.new 0 0) p
        (Cell.new 2 2) = true → res.length ≤ p.length) ∧
      ((∀ i, (List.replicate 9 false : List Bool).getD i false = false) →
        (Cell.new 0 0).x < 3 → (Cell.new 0 0).y < 3 →
        (Cell.new 2 2).x < 3 → (Cell.new 2 2).y < 3 →
        res.length = Cell.manhattan_distance (Cell.new 0 0) (Cell.new 2 2))) :=
  ⟨by decide, claim_C4 (MySolver.mk solved33) (Cell.new 0 0) (Cell.new 2 2)
    (List.replicate 9 false) (by decide)⟩

theorem claim_C9_witness :
    (1 ≤ 2 ∧ 2 ≤ 2 * 2 ∧ State.new 2 2 = some solved22) ∧
    (solved22.is_finished = true ∧
      solved22.pieces.count none = 1 ∧
      solved22.pieces[2 * 2 - 1]? = some none ∧
      solved22.blank_cell = Cell.new (2 - 1) (2 - 1) ∧
      solved22.blank_cell = cellOfIndex (2 * 2 - 1) 2 2 ∧
      ∀ k, 1 ≤ k → k ≤ 2 * 2 - 1 →
        solved22.pieces[k - 1]? = some (some (Piece.new k))) :=
  ⟨⟨by decide, by decide, by decide⟩,
    claim_C9 2 2 (by decide) (by decide) (by decide) solved22 (by decide)⟩

end SlidePuzzle
